import Mathlib

/-!
# Verification of the zlist.h per-type doubly-linked-list engine

Shallow embedding of the list engine generated by `ZLIST_GENERATE_IMPL(T, Name)`
in `src/zlist.h` (lines 606-793), together with the safe/Result tier generated
by `ZLIST_GEN_SAFE_IMPL(T, Name)` (lines 491-554).

Modelling decisions:
* Node pointers are heap addresses (`Nat`); `NULL` is `Option.none`.
* The heap is a total function `Nat → Option Node`; `none` means the address
  is unallocated.  `malloc` is modelled by passing the allocator's outcome
  (`Option Nat`, a fresh address or `none` for failure) to the operation,
  matching `zlist_create_node_##Name` which returns a node or `NULL`.
* `free` removes the address from the heap.
* The element type `T` is modelled as `Int` (the engine is parametric in `T`
  and never inspects values).
* `size_t length` is modelled as `Nat`; a real list always has fewer than
  2^64 nodes, so `l->length++` cannot overflow, and every `l->length--` in
  the source is reached only down a branch that (under the handle invariant)
  guarantees `length ≥ 1`, so truncated subtraction agrees with the machine.
* The `while` loops of `zlist_clear` and `zlist_reverse` are embedded with an
  explicit fuel parameter instantiated with `l.length`; under the handle
  invariant the C loop executes exactly `length` iterations, so the fuel
  never binds.
-/

/-- Return code `Z_OK` from zcommon.h. -/
def Z_OK : Int := 0

/-- Return code `Z_ENOMEM` (out of memory) from zcommon.h. -/
def Z_ENOMEM : Int := -2

/-- Return code `Z_EEMPTY` (container is empty) from zcommon.h. -/
def Z_EEMPTY : Int := -4

/-- `zlist_node_##Name`: `prev`/`next` pointers and the stored value. -/
structure Node where
  prev : Option Nat
  next : Option Nat
  value : Int
deriving Repr, DecidableEq

/-- The store of allocated nodes, addressed by `Nat`. -/
abbrev Heap := Nat → Option Node

/-- `zlist_##Name`: the list handle `{ head; tail; length }`. -/
structure ZList where
  head : Option Nat
  tail : Option Nat
  length : Nat
deriving Repr, DecidableEq

/-- Heap update (pointer write / allocation / free at address `a`). -/
def hupd (h : Heap) (a : Nat) (x : Option Node) : Heap :=
  fun b => if b = a then x else h b

/-- Read `a->next`; dereferencing an unallocated address is UB in C, modelled
as `none`. -/
def getNext (h : Heap) (a : Nat) : Option Nat :=
  match h a with
  | some nd => nd.next
  | none => none

/-- Read `a->prev`. -/
def getPrev (h : Heap) (a : Nat) : Option Nat :=
  match h a with
  | some nd => nd.prev
  | none => none

/-- Read `a->value`. -/
def getVal (h : Heap) (a : Nat) : Int :=
  match h a with
  | some nd => nd.value
  | none => 0

/-- Write `a->next = p` (no-op on an unallocated address, which is UB in C). -/
def setNext (h : Heap) (a : Nat) (p : Option Nat) : Heap :=
  match h a with
  | some nd => hupd h a (some { nd with next := p })
  | none => h

/-- Write `a->prev = p`. -/
def setPrev (h : Heap) (a : Nat) (p : Option Nat) : Heap :=
  match h a with
  | some nd => hupd h a (some { nd with prev := p })
  | none => h

/-- `zlist_init_##Name`: `{ NULL, NULL, 0 }`. -/
def zlist_init : ZList := ⟨none, none, 0⟩

/-- `zlist_is_empty_##Name`: `l->head == NULL`. -/
def zlist_is_empty (l : ZList) : Bool := l.head.isNone

/-- `zlist_push_back_##Name`.  `alloc` is the outcome of
`zlist_create_node_##Name` (a fresh address, or `none` when malloc fails).
Returns the new heap, the new handle and the `int` return code. -/
def zlist_push_back (h : Heap) (l : ZList) (v : Int) (alloc : Option Nat) :
    Heap × ZList × Int :=
  match alloc with
  | none => (h, l, Z_ENOMEM)
  | some a =>
    -- create_node: n->value = val; n->prev = NULL; n->next = NULL;
    -- then: n->prev = l->tail;
    let h1 := hupd h a (some { prev := l.tail, next := none, value := v })
    -- if (l->tail) l->tail->next = n;
    let h2 := match l.tail with
      | some t => setNext h1 t (some a)
      | none => h1
    -- l->tail = n; if (!l->head) l->head = n; l->length++;
    let l2 : ZList :=
      { head := match l.head with
          | none => some a
          | some x => some x,
        tail := some a,
        length := l.length + 1 }
    (h2, l2, Z_OK)

/-- `zlist_push_front_##Name`. -/
def zlist_push_front (h : Heap) (l : ZList) (v : Int) (alloc : Option Nat) :
    Heap × ZList × Int :=
  match alloc with
  | none => (h, l, Z_ENOMEM)
  | some a =>
    -- create_node, then: n->next = l->head;
    let h1 := hupd h a (some { prev := none, next := l.head, value := v })
    -- if (l->head) l->head->prev = n;
    let h2 := match l.head with
      | some x => setPrev h1 x (some a)
      | none => h1
    -- l->head = n; if (!l->tail) l->tail = n; l->length++;
    let l2 : ZList :=
      { head := some a,
        tail := match l.tail with
          | none => some a
          | some x => some x,
        length := l.length + 1 }
    (h2, l2, Z_OK)

/-- `zlist_insert_after_##Name`.  `p` is the `prev_node` argument
(`none` = `NULL` means "insert at front"). -/
def zlist_insert_after (h : Heap) (l : ZList) (p : Option Nat) (v : Int)
    (alloc : Option Nat) : Heap × ZList × Int :=
  match p with
  | none => zlist_push_front h l v alloc
  | some pa =>
    match alloc with
    | none => (h, l, Z_ENOMEM)
    | some a =>
      -- create_node, then: n->prev = prev_node; n->next = prev_node->next;
      let h1 := hupd h a (some { prev := some pa, next := getNext h pa, value := v })
      -- if (prev_node->next) prev_node->next->prev = n; else l->tail = n;
      let h2 := match getNext h1 pa with
        | some q => setPrev h1 q (some a)
        | none => h1
      let tail1 := match getNext h1 pa with
        | some _ => l.tail
        | none => some a
      -- prev_node->next = n; l->length++;
      let h3 := setNext h2 pa (some a)
      (h3, { head := l.head, tail := tail1, length := l.length + 1 }, Z_OK)

/-- `zlist_pop_back_##Name`. -/
def zlist_pop_back (h : Heap) (l : ZList) : Heap × ZList :=
  match l.tail with
  | none => (h, l)
  | some t =>
    -- l->tail = old_tail->prev;
    let newTail := getPrev h t
    -- if (l->tail) l->tail->next = NULL; else l->head = NULL;
    let h1 := match newTail with
      | some nt => setNext h nt none
      | none => h
    let head1 := match newTail with
      | some _ => l.head
      | none => none
    -- zlist_free_node(old_tail); l->length--;
    let h2 := hupd h1 t none
    (h2, { head := head1, tail := newTail, length := l.length - 1 })

/-- `zlist_pop_front_##Name`. -/
def zlist_pop_front (h : Heap) (l : ZList) : Heap × ZList :=
  match l.head with
  | none => (h, l)
  | some x =>
    let newHead := getNext h x
    let h1 := match newHead with
      | some nh => setPrev h nh none
      | none => h
    let tail1 := match newHead with
      | some _ => l.tail
      | none => none
    let h2 := hupd h1 x none
    (h2, { head := newHead, tail := tail1, length := l.length - 1 })

/-- `zlist_remove_node_##Name` (`n = none` models a `NULL` argument). -/
def zlist_remove_node (h : Heap) (l : ZList) (n : Option Nat) : Heap × ZList :=
  match n with
  | none => (h, l)
  | some a =>
    -- if (n->prev) n->prev->next = n->next; else l->head = n->next;
    let h1 := match getPrev h a with
      | some p => setNext h p (getNext h a)
      | none => h
    let head1 := match getPrev h a with
      | some _ => l.head
      | none => getNext h a
    -- if (n->next) n->next->prev = n->prev; else l->tail = n->prev;
    let h2 := match getNext h1 a with
      | some q => setPrev h1 q (getPrev h1 a)
      | none => h1
    let tail1 := match getNext h1 a with
      | some _ => l.tail
      | none => getPrev h1 a
    -- zlist_free_node(n); l->length--;
    let h3 := hupd h2 a none
    (h3, { head := head1, tail := tail1, length := l.length - 1 })

/-- `zlist_detach_node_##Name`: unlink without freeing; clears the node's
links and returns it. -/
def zlist_detach_node (h : Heap) (l : ZList) (n : Option Nat) :
    Heap × ZList × Option Nat :=
  match n with
  | none => (h, l, none)
  | some a =>
    let h1 := match getPrev h a with
      | some p => setNext h p (getNext h a)
      | none => h
    let head1 := match getPrev h a with
      | some _ => l.head
      | none => getNext h a
    let h2 := match getNext h1 a with
      | some q => setPrev h1 q (getPrev h1 a)
      | none => h1
    let tail1 := match getNext h1 a with
      | some _ => l.tail
      | none => getPrev h1 a
    -- n->prev = n->next = NULL; l->length--; return n;
    let h3 := match h2 a with
      | some nd => hupd h2 a (some { prev := none, next := none, value := nd.value })
      | none => h2
    (h3, { head := head1, tail := tail1, length := l.length - 1 }, some a)

/-- The loop body of `zlist_clear_##Name`:
`while (curr) { next = curr->next; free(curr); curr = next; }`,
with explicit fuel. -/
def clearNodes (h : Heap) (curr : Option Nat) : Nat → Heap
  | 0 => h
  | fuel + 1 =>
    match curr with
    | none => h
    | some a => clearNodes (hupd h a none) (getNext h a) fuel

/-- `zlist_clear_##Name`. -/
def zlist_clear (h : Heap) (l : ZList) : Heap × ZList :=
  (clearNodes h l.head l.length, ⟨none, none, 0⟩)

/-- `zlist_splice_##Name`.  `sameHandle` models the pointer comparison
`dest == src` (the two handle objects being one and the same); in that case
the function returns immediately and the single underlying object is
unchanged. -/
def zlist_splice (h : Heap) (dest src : ZList) (sameHandle : Bool) :
    Heap × ZList × ZList :=
  if sameHandle then (h, dest, src)
  else
    match src.head with
    | none => (h, dest, src)
    | some sh =>
      match dest.head with
      | none =>
        -- *dest = *src; then src->head = src->tail = NULL; src->length = 0;
        (h, src, ⟨none, none, 0⟩)
      | some _ =>
        -- dest->tail->next = src->head;
        let h1 := match dest.tail with
          | some dt => setNext h dt (some sh)
          | none => h
        -- src->head->prev = dest->tail;
        let h2 := setPrev h1 sh dest.tail
        -- dest->tail = src->tail; dest->length += src->length;
        (h2,
         { head := dest.head, tail := src.tail, length := dest.length + src.length },
         ⟨none, none, 0⟩)

/-- The loop of `zlist_reverse_##Name`:
`while (curr) { temp = curr->prev; curr->prev = curr->next; curr->next = temp;
curr = curr->prev; }`, with explicit fuel.  Returns the final heap and the
final value of `temp`. -/
def reverseLoop (h : Heap) (curr temp : Option Nat) : Nat → Heap × Option Nat
  | 0 => (h, temp)
  | fuel + 1 =>
    match curr with
    | none => (h, temp)
    | some a =>
      match h a with
      | none => (h, temp)
      | some nd =>
        reverseLoop (hupd h a (some { prev := nd.next, next := nd.prev, value := nd.value }))
          nd.next nd.prev fuel

/-- `zlist_reverse_##Name`. -/
def zlist_reverse (h : Heap) (l : ZList) : Heap × ZList :=
  let r := reverseLoop h l.head none l.length
  match r.2 with
  | none => (r.1, l)
  | some t =>
    -- if (temp) { l->tail = l->head; l->head = temp->prev; }
    (r.1, { head := getPrev r.1 t, tail := l.head, length := l.length })

/-- `zlist_at_##Name`. -/
def zlist_at (h : Heap) (l : ZList) (index : Nat) : Option Nat :=
  if index ≥ l.length then none
  else
    -- curr = l->head; while (index-- > 0) curr = curr->next;
    let rec go (cur : Option Nat) : Nat → Option Nat
      | 0 => cur
      | k + 1 =>
        match cur with
        | some a => go (getNext h a) k
        | none => go none k
    go l.head index

/-- The error record consumed from zerror.h, reduced to the fields the list
engine sets: the error code and the message.  Call-site location data
(`file`, `line`, `func`) is abstracted away. -/
structure zerr where
  code : Int
  msg : String
deriving Repr, DecidableEq

/-- `zres`: struct `{ bool is_ok; zerr err; }`. -/
structure zres where
  is_ok : Bool
  err : zerr
deriving Repr, DecidableEq

/-- `zres_ok()`: designated initializer zero-fills `err`. -/
def zres_ok : zres := ⟨true, ⟨0, ""⟩⟩

/-- `zres_err(e)`. -/
def zres_err (e : zerr) : zres := ⟨false, e⟩

/-- `zlist_err_impl(code, msg, file, line, func)` with location abstracted. -/
def zlist_err (code : Int) (msg : String) : zerr := ⟨code, msg⟩

/-- `DEFINE_RESULT(T, Res_##Name)`: a value-carrying result. -/
inductive ResV where
  | ok (v : Int)
  | err (e : zerr)
deriving Repr, DecidableEq

/-- `zlist_push_back_safe_##Name`. -/
def zlist_push_back_safe (h : Heap) (l : ZList) (v : Int) (alloc : Option Nat) :
    Heap × ZList × zres :=
  let r := zlist_push_back h l v alloc
  if r.2.2 ≠ Z_OK then
    (r.1, r.2.1, zres_err (zlist_err Z_ENOMEM "List Push OOM"))
  else
    (r.1, r.2.1, zres_ok)

/-- `zlist_push_front_safe_##Name`. -/
def zlist_push_front_safe (h : Heap) (l : ZList) (v : Int) (alloc : Option Nat) :
    Heap × ZList × zres :=
  let r := zlist_push_front h l v alloc
  if r.2.2 ≠ Z_OK then
    (r.1, r.2.1, zres_err (zlist_err Z_ENOMEM "List Push OOM"))
  else
    (r.1, r.2.1, zres_ok)

/-- `zlist_front_safe_##Name` (read-only: the C function does not mutate). -/
def zlist_front_safe (h : Heap) (l : ZList) : ResV :=
  match l.head with
  | none => ResV.err (zlist_err Z_EEMPTY "List is empty")
  | some x => ResV.ok (getVal h x)

/-- `zlist_back_safe_##Name`. -/
def zlist_back_safe (h : Heap) (l : ZList) : ResV :=
  match l.tail with
  | none => ResV.err (zlist_err Z_EEMPTY "List is empty")
  | some t => ResV.ok (getVal h t)

/-- `zlist_pop_back_safe_##Name`. -/
def zlist_pop_back_safe (h : Heap) (l : ZList) : Heap × ZList × zres :=
  match l.tail with
  | none => (h, l, zres_err (zlist_err Z_EEMPTY "List is empty"))
  | some _ =>
    let r := zlist_pop_back h l
    (r.1, r.2, zres_ok)

/-- `zlist_pop_front_safe_##Name`. -/
def zlist_pop_front_safe (h : Heap) (l : ZList) : Heap × ZList × zres :=
  match l.head with
  | none => (h, l, zres_err (zlist_err Z_EEMPTY "List is empty"))
  | some _ =>
    let r := zlist_pop_front h l
    (r.1, r.2, zres_ok)

/-! ## Representation predicate: a handle owns a chain of addresses -/

/-- The head of `ns`, or `nx` when `ns` is empty (the pointer that a chain
segment `ns` starts with, given that `nx` follows the segment). -/
def hdOr : List Nat → Option Nat → Option Nat
  | [], nx => nx
  | a :: _, _ => some a

/-- The last element of `ns`, or `pr` when `ns` is empty. -/
def lastOr : List Nat → Option Nat → Option Nat
  | [], pr => pr
  | a :: rest, _ => lastOr rest (some a)

/-- `dllSeg h pr ns nx`: the addresses `ns` form a doubly-linked chain
segment in heap `h` whose first node's `prev` is `pr`, whose last node's
`next` is `nx`, and whose internal `prev`/`next` links match adjacency. -/
def dllSeg (h : Heap) : Option Nat → List Nat → Option Nat → Prop
  | _, [], _ => True
  | pr, a :: rest, nx =>
    ∃ nd, h a = some nd ∧ nd.prev = pr ∧ nd.next = hdOr rest nx ∧
      dllSeg h (some a) rest nx

/-- The list-handle invariants of the spec, witnessed by the address chain
`ns`: distinct nodes, correctly doubly linked with `NULL` ends, with
`head`/`tail`/`length` describing the chain. -/
structure represents (h : Heap) (l : ZList) (ns : List Nat) : Prop where
  nodup : ns.Nodup
  seg : dllSeg h none ns none
  head_eq : l.head = hdOr ns none
  tail_eq : l.tail = lastOr ns none
  len_eq : l.length = ns.length

/-- The list-handle invariant: some address chain realises the handle. -/
def listInv (h : Heap) (l : ZList) : Prop :=
  ∃ ns : List Nat, represents h l ns

/-- The element sequence held by the chain `ns`. -/
def vals (h : Heap) (ns : List Nat) : List Int := ns.map (getVal h)

/-- Iterate successor links `k` times (the forward walk of the spec). -/
def walkNext (h : Heap) : Option Nat → Nat → Option Nat
  | cur, 0 => cur
  | none, _ + 1 => none
  | some a, k + 1 => walkNext h (getNext h a) k

/-- Iterate predecessor links `k` times (the backward walk of the spec). -/
def walkPrev (h : Heap) : Option Nat → Nat → Option Nat
  | cur, 0 => cur
  | none, _ + 1 => none
  | some a, k + 1 => walkPrev h (getPrev h a) k

/-! ## Basic lemmas about the heap and the chain predicate -/

theorem hupd_self (h : Heap) (a : Nat) (x : Option Node) : hupd h a x a = x := by
  simp [hupd]

theorem hupd_ne (h : Heap) (a : Nat) (x : Option Node) {b : Nat} (hb : b ≠ a) :
    hupd h a x b = h b := by
  simp [hupd, hb]

theorem setNext_ne (h : Heap) (a : Nat) (p : Option Nat) {b : Nat} (hb : b ≠ a) :
    setNext h a p b = h b := by
  unfold setNext
  cases h a with
  | none => rfl
  | some nd => exact hupd_ne _ _ _ hb

theorem setPrev_ne (h : Heap) (a : Nat) (p : Option Nat) {b : Nat} (hb : b ≠ a) :
    setPrev h a p b = h b := by
  unfold setPrev
  cases h a with
  | none => rfl
  | some nd => exact hupd_ne _ _ _ hb

theorem setNext_self (h : Heap) (a : Nat) (p : Option Nat) {nd : Node}
    (ha : h a = some nd) : setNext h a p a = some { nd with next := p } := by
  unfold setNext
  rw [ha]
  exact hupd_self _ _ _

theorem setPrev_self (h : Heap) (a : Nat) (p : Option Nat) {nd : Node}
    (ha : h a = some nd) : setPrev h a p a = some { nd with prev := p } := by
  unfold setPrev
  rw [ha]
  exact hupd_self _ _ _

theorem hdOr_append (xs ys : List Nat) (nx : Option Nat) :
    hdOr (xs ++ ys) nx = hdOr xs (hdOr ys nx) := by
  cases xs <;> rfl

theorem lastOr_append (xs ys : List Nat) (pr : Option Nat) :
    lastOr (xs ++ ys) pr = lastOr ys (lastOr xs pr) := by
  induction xs generalizing pr with
  | nil => rfl
  | cons a rest ih => simpa [lastOr] using ih (some a)

theorem hdOr_drop (ns : List Nat) (k : Nat) :
    hdOr (ns.drop k) none = ns[k]? := by
  induction ns generalizing k with
  | nil => cases k <;> simp [hdOr]
  | cons a rest ih =>
    cases k with
    | zero => simp [hdOr]
    | succ k => simpa using ih k

theorem lastOr_eq_getLast? (ns : List Nat) :
    lastOr ns none = ns.getLast? := by
  induction ns with
  | nil => rfl
  | cons a rest ih =>
    cases rest with
    | nil => rfl
    | cons b t =>
      have : lastOr (b :: t) (some a) = lastOr (b :: t) none := by
        simp [lastOr]
      rw [lastOr, this, ih, List.getLast?_cons_cons]

theorem dllSeg_nil (h : Heap) (pr nx : Option Nat) : dllSeg h pr [] nx :=
  trivial

theorem dllSeg_cons (h : Heap) (pr nx : Option Nat) (a : Nat) (rest : List Nat) :
    dllSeg h pr (a :: rest) nx ↔
      ∃ nd, h a = some nd ∧ nd.prev = pr ∧ nd.next = hdOr rest nx ∧
        dllSeg h (some a) rest nx :=
  Iff.rfl

theorem dllSeg_congr {h1 h2 : Heap} {pr nx : Option Nat} {ns : List Nat}
    (hagree : ∀ b ∈ ns, h2 b = h1 b) (hseg : dllSeg h1 pr ns nx) :
    dllSeg h2 pr ns nx := by
  induction ns generalizing pr with
  | nil => exact trivial
  | cons a rest ih =>
    obtain ⟨nd, ha, hp, hn, hrest⟩ := hseg
    exact ⟨nd, (hagree a (by simp)).trans ha, hp, hn,
      ih (fun b hb => hagree b (by simp [hb])) hrest⟩

theorem dllSeg_mem_isSome {h : Heap} {pr nx : Option Nat} {ns : List Nat}
    (hseg : dllSeg h pr ns nx) : ∀ b ∈ ns, ∃ nd, h b = some nd := by
  induction ns generalizing pr with
  | nil => intro b hb; cases hb
  | cons a rest ih =>
    obtain ⟨nd, ha, _, _, hrest⟩ := hseg
    intro b hb
    rcases List.mem_cons.1 hb with hba | hbr
    · exact ⟨nd, hba ▸ ha⟩
    · exact ih hrest b hbr

theorem dllSeg_append {h : Heap} {pr nx : Option Nat} (xs ys : List Nat) :
    dllSeg h pr (xs ++ ys) nx ↔
      dllSeg h pr xs (hdOr ys nx) ∧ dllSeg h (lastOr xs pr) ys nx := by
  induction xs generalizing pr with
  | nil => simp [dllSeg_nil, lastOr]
  | cons a rest ih =>
    rw [List.cons_append, dllSeg_cons, dllSeg_cons]
    constructor
    · rintro ⟨nd, ha, hp, hn, hrest⟩
      rw [ih] at hrest
      exact ⟨⟨nd, ha, hp, by rwa [hdOr_append] at hn, hrest.1⟩, by
        simpa [lastOr] using hrest.2⟩
    · rintro ⟨⟨nd, ha, hp, hn, hrest⟩, hys⟩
      refine ⟨nd, ha, hp, by rwa [hdOr_append], ?_⟩
      rw [ih]
      exact ⟨hrest, by simpa [lastOr] using hys⟩

theorem dllSeg_singleton {h : Heap} {pr nx : Option Nat} {a : Nat} :
    dllSeg h pr [a] nx ↔ ∃ nd, h a = some nd ∧ nd.prev = pr ∧ nd.next = nx := by
  constructor
  · rintro ⟨nd, ha, hp, hn, -⟩
    exact ⟨nd, ha, hp, hn⟩
  · rintro ⟨nd, ha, hp, hn⟩
    exact ⟨nd, ha, hp, hn, dllSeg_nil _ _ _⟩

theorem dllSeg_fresh_not_mem {h : Heap} {pr nx : Option Nat} {ns : List Nat}
    (hseg : dllSeg h pr ns nx) {a : Nat} (ha : h a = none) : a ∉ ns := by
  intro hmem
  obtain ⟨nd, hnd⟩ := dllSeg_mem_isSome hseg a hmem
  rw [ha] at hnd
  cases hnd

theorem dllSeg_setNext_last {h : Heap} {pr nx : Option Nat} {s : List Nat} {t : Nat}
    (hseg : dllSeg h pr (s ++ [t]) nx) (hnd : (s ++ [t]).Nodup) (nx2 : Option Nat) :
    dllSeg (setNext h t nx2) pr (s ++ [t]) nx2 := by
  rw [dllSeg_append] at hseg ⊢
  obtain ⟨hs, ht⟩ := hseg
  rw [dllSeg_singleton] at ht
  obtain ⟨nd, hta, htp, -⟩ := ht
  have htns : t ∉ s := by
    intro hts
    exact List.disjoint_of_nodup_append hnd hts (by simp)
  constructor
  · refine dllSeg_congr (fun b hb => setNext_ne _ _ _ (fun hbt => htns (hbt ▸ hb))) ?_
    simpa [hdOr] using hs
  · rw [dllSeg_singleton]
    exact ⟨{ nd with next := nx2 }, setNext_self h t nx2 hta, htp, rfl⟩

theorem dllSeg_setPrev_head {h : Heap} {pr nx : Option Nat} {a : Nat} {rest : List Nat}
    (hseg : dllSeg h pr (a :: rest) nx) (hnd : (a :: rest).Nodup) (pr2 : Option Nat) :
    dllSeg (setPrev h a pr2) pr2 (a :: rest) nx := by
  obtain ⟨nd, ha, hp, hn, hrest⟩ := hseg
  have hanr : a ∉ rest := (List.nodup_cons.1 hnd).1
  exact ⟨{ nd with prev := pr2 }, setPrev_self h a pr2 ha, rfl, hn,
    dllSeg_congr (fun b hb => setPrev_ne _ _ _ (fun hba => hanr (hba ▸ hb))) hrest⟩

theorem walkNext_zero (h : Heap) (c : Option Nat) : walkNext h c 0 = c := by
  cases c <;> rfl

theorem walkPrev_zero (h : Heap) (c : Option Nat) : walkPrev h c 0 = c := by
  cases c <;> rfl

theorem walkNext_none (h : Heap) (k : Nat) : walkNext h none k = none := by
  cases k <;> rfl

theorem walkPrev_none (h : Heap) (k : Nat) : walkPrev h none k = none := by
  cases k <;> rfl

theorem walkNext_add (h : Heap) (c : Option Nat) (j k : Nat) :
    walkNext h c (j + k) = walkNext h (walkNext h c j) k := by
  induction j generalizing c with
  | zero => simp [Nat.zero_add, walkNext_zero]
  | succ j ih =>
    cases c with
    | none => rw [walkNext_none, walkNext_none, walkNext_none]
    | some a =>
      have harith : j + 1 + k = (j + k) + 1 := by omega
      rw [harith]
      show walkNext h (getNext h a) (j + k) = walkNext h (walkNext h (getNext h a) j) k
      exact ih _

theorem walkNext_seg {h : Heap} {pr nx : Option Nat} {ns : List Nat}
    (hseg : dllSeg h pr ns nx) : ∀ k, k ≤ ns.length →
    walkNext h (hdOr ns nx) k = hdOr (ns.drop k) nx := by
  induction ns generalizing pr with
  | nil =>
    intro k hk
    have hk0 : k = 0 := Nat.le_zero.mp hk
    subst hk0
    simp [walkNext_zero, hdOr]
  | cons a rest ih =>
    intro k hk
    cases k with
    | zero => simp [walkNext_zero, hdOr]
    | succ k =>
      obtain ⟨nd, ha, hp, hn, hrest⟩ := hseg
      show walkNext h (getNext h a) k = hdOr (rest.drop k) nx
      have hgn : getNext h a = hdOr rest nx := by simp [getNext, ha, hn]
      rw [hgn]
      exact ih hrest k (Nat.le_of_succ_le_succ hk)

theorem lastOr_reverse (ns : List Nat) (x : Option Nat) :
    lastOr ns.reverse x = hdOr ns x := by
  cases ns with
  | nil => rfl
  | cons a rest =>
    rw [List.reverse_cons, lastOr_append]
    rfl

theorem walkPrev_seg {h : Heap} (ns : List Nat) :
    ∀ (pr nx : Option Nat), dllSeg h pr ns nx → ∀ k, k ≤ ns.length →
    walkPrev h (lastOr ns pr) k = lastOr (ns.take (ns.length - k)) pr := by
  induction ns using List.reverseRecOn with
  | nil =>
    intro pr nx _ k hk
    have hk0 : k = 0 := Nat.le_zero.mp hk
    subst hk0
    simp [walkPrev_zero, lastOr]
  | append_singleton s t ih =>
    intro pr nx hseg k hk
    rw [dllSeg_append] at hseg
    obtain ⟨hs, ht⟩ := hseg
    rw [dllSeg_singleton] at ht
    obtain ⟨nd, hta, htp, -⟩ := ht
    cases k with
    | zero =>
      rw [Nat.sub_zero, List.take_length, walkPrev_zero]
    | succ k =>
      have hlast : lastOr (s ++ [t]) pr = some t := by
        rw [lastOr_append]
        rfl
      rw [hlast]
      show walkPrev h (getPrev h t) k = _
      have hgp : getPrev h t = lastOr s pr := by simp [getPrev, hta, htp]
      rw [hgp]
      have hk' : k ≤ s.length := by
        have := List.length_append s [t] ▸ hk
        simpa using this
      rw [ih pr (some t) hs k hk']
      have h1 : (s ++ [t]).length - (k + 1) = s.length - k := by
        simp
      rw [h1, List.take_append_of_le_length (Nat.sub_le _ _)]

/-! ## Frame lemmas for values -/

theorem getVal_setNext (h : Heap) (t : Nat) (p : Option Nat) (b : Nat) :
    getVal (setNext h t p) b = getVal h b := by
  unfold setNext
  cases hht : h t with
  | none => rfl
  | some nd =>
    by_cases hbt : b = t
    · subst hbt
      simp [getVal, hupd_self, hht]
    · simp [getVal, hupd_ne _ _ _ hbt]

theorem getVal_setPrev (h : Heap) (t : Nat) (p : Option Nat) (b : Nat) :
    getVal (setPrev h t p) b = getVal h b := by
  unfold setPrev
  cases hht : h t with
  | none => rfl
  | some nd =>
    by_cases hbt : b = t
    · subst hbt
      simp [getVal, hupd_self, hht]
    · simp [getVal, hupd_ne _ _ _ hbt]

theorem vals_congr {h1 h2 : Heap} {ns : List Nat}
    (hagree : ∀ b ∈ ns, getVal h2 b = getVal h1 b) : vals h2 ns = vals h1 ns :=
  List.map_congr_left hagree

/-! ## Specification of push_back / push_front -/

theorem push_back_fail (h : Heap) (l : ZList) (v : Int) :
    zlist_push_back h l v none = (h, l, Z_ENOMEM) := rfl

theorem push_front_fail (h : Heap) (l : ZList) (v : Int) :
    zlist_push_front h l v none = (h, l, Z_ENOMEM) := rfl

theorem getVal_hupd_ne (h : Heap) (a : Nat) (x : Option Node) {b : Nat}
    (hb : b ≠ a) : getVal (hupd h a x) b = getVal h b := by
  unfold getVal
  rw [hupd_ne _ _ _ hb]

theorem hdOr_of_ne_nil {ns : List Nat} (hne : ns ≠ []) (x y : Option Nat) :
    hdOr ns x = hdOr ns y := by
  cases ns with
  | nil => exact absurd rfl hne
  | cons a rest => rfl

theorem nodup_append_fresh {ns : List Nat} {a : Nat} (hnd : ns.Nodup)
    (hams : a ∉ ns) : (ns ++ [a]).Nodup := by
  rw [List.nodup_append]
  exact ⟨hnd, List.nodup_singleton a, fun b hb hba =>
    hams ((List.mem_singleton.mp hba) ▸ hb)⟩

theorem push_back_spec {h : Heap} {l : ZList} {ns : List Nat} (v : Int) {a : Nat}
    (hrep : represents h l ns) (hfresh : h a = none) :
    (zlist_push_back h l v (some a)).2.2 = Z_OK ∧
    represents (zlist_push_back h l v (some a)).1
      (zlist_push_back h l v (some a)).2.1 (ns ++ [a]) ∧
    (∀ b, b ≠ a → some b ≠ l.tail → (zlist_push_back h l v (some a)).1 b = h b) ∧
    vals (zlist_push_back h l v (some a)).1 (ns ++ [a]) = vals h ns ++ [v] := by
  obtain ⟨hnd, hseg, hhd, htl, hlen⟩ := hrep
  have hams : a ∉ ns := dllSeg_fresh_not_mem hseg hfresh
  have hndup : (ns ++ [a]).Nodup := nodup_append_fresh hnd hams
  rcases List.eq_nil_or_concat ns with rfl | ⟨s, t, hns⟩
  · -- empty list: the l->tail == NULL branch
    have htl' : l.tail = none := htl
    have hhd' : l.head = none := hhd
    refine ⟨rfl, ?_, ?_, ?_⟩
    · simp only [zlist_push_back, htl', hhd']
      refine ⟨hndup, ?_, rfl, rfl, by simp [hlen]⟩
      rw [List.nil_append, dllSeg_singleton]
      exact ⟨_, hupd_self _ _ _, rfl, rfl⟩
    · intro b hba _
      simp only [zlist_push_back, htl']
      exact hupd_ne _ _ _ hba
    · simp only [zlist_push_back, htl']
      simp [vals, getVal, hupd_self]
  · -- non-empty list: the l->tail == some t branch
    rw [List.concat_eq_append] at hns
    subst hns
    have htl' : l.tail = some t := by
      rw [htl, lastOr_append]
      rfl
    have hta : t ≠ a := fun hx => hams (hx ▸ (by simp : t ∈ s ++ [t]))
    obtain ⟨x, hhd'⟩ : ∃ x, l.head = some x := by
      rw [hhd]
      cases s with
      | nil => exact ⟨t, rfl⟩
      | cons c s' => exact ⟨c, rfl⟩
    have hh1a : hupd h a (some { prev := some t, next := none, value := v }) a
        = some { prev := some t, next := none, value := v } := hupd_self _ _ _
    have hseg1 :
        dllSeg (hupd h a (some { prev := some t, next := none, value := v }))
          none (s ++ [t]) none :=
      dllSeg_congr (fun b hb => hupd_ne _ _ _ (fun hx => hams (hx ▸ hb))) hseg
    have hseg2 :
        dllSeg (setNext (hupd h a (some { prev := some t, next := none, value := v }))
            t (some a)) none (s ++ [t]) (some a) :=
      dllSeg_setNext_last hseg1 hnd (some a)
    have hh2a :
        setNext (hupd h a (some { prev := some t, next := none, value := v }))
          t (some a) a = some { prev := some t, next := none, value := v } := by
      rw [setNext_ne _ _ _ (Ne.symm hta)]
      exact hh1a
    refine ⟨rfl, ?_, ?_, ?_⟩
    · simp only [zlist_push_back, htl', hhd']
      refine ⟨hndup, ?_, ?_, ?_, ?_⟩
      · rw [dllSeg_append]
        refine ⟨?_, ?_⟩
        · simpa [hdOr] using hseg2
        · rw [dllSeg_singleton]
          refine ⟨_, hh2a, ?_, rfl⟩
          rw [lastOr_append]
          rfl
      · rw [hdOr_append,
          ← hdOr_of_ne_nil (by simp : s ++ [t] ≠ []) none (hdOr [a] none), ← hhd, hhd']
      · rw [lastOr_append]
        rfl
      · rw [hlen]
        simp
    · intro b hba hbt
      simp only [zlist_push_back, htl']
      have hbt' : b ≠ t := fun hx => hbt (by rw [hx, htl'])
      rw [setNext_ne _ _ _ hbt', hupd_ne _ _ _ hba]
    · simp only [zlist_push_back, htl']
      have hva :
          getVal (setNext (hupd h a (some { prev := some t, next := none, value := v }))
            t (some a)) a = v := by
        simp [getVal, hh2a]
      have hgv : ∀ b ∈ s ++ [t],
          getVal (setNext (hupd h a (some { prev := some t, next := none, value := v }))
            t (some a)) b = getVal h b := by
        intro b hb
        have hba : b ≠ a := fun hx => hams (hx ▸ hb)
        rw [getVal_setNext, getVal_hupd_ne _ _ _ hba]
      have hs : List.map (getVal (setNext
            (hupd h a (some { prev := some t, next := none, value := v })) t (some a))) s
          = List.map (getVal h) s :=
        List.map_congr_left (fun b hb => hgv b (List.mem_append_left _ hb))
      have hvt : getVal (setNext
            (hupd h a (some { prev := some t, next := none, value := v })) t (some a)) t
          = getVal h t := hgv t (by simp)
      simp [vals, hva, hs, hvt]

theorem push_front_spec {h : Heap} {l : ZList} {ns : List Nat} (v : Int) {a : Nat}
    (hrep : represents h l ns) (hfresh : h a = none) :
    (zlist_push_front h l v (some a)).2.2 = Z_OK ∧
    represents (zlist_push_front h l v (some a)).1
      (zlist_push_front h l v (some a)).2.1 (a :: ns) ∧
    (∀ b, b ≠ a → some b ≠ l.head → (zlist_push_front h l v (some a)).1 b = h b) ∧
    vals (zlist_push_front h l v (some a)).1 (a :: ns) = v :: vals h ns := by
  obtain ⟨hnd, hseg, hhd, htl, hlen⟩ := hrep
  have hams : a ∉ ns := dllSeg_fresh_not_mem hseg hfresh
  have hndup : (a :: ns).Nodup := List.nodup_cons.mpr ⟨hams, hnd⟩
  cases ns with
  | nil =>
    -- empty list: the l->head == NULL branch
    have hhd' : l.head = none := hhd
    have htl' : l.tail = none := htl
    refine ⟨rfl, ?_, ?_, ?_⟩
    · simp only [zlist_push_front, hhd', htl']
      refine ⟨hndup, ?_, rfl, rfl, by simp [hlen]⟩
      exact ⟨_, hupd_self _ _ _, rfl, rfl, dllSeg_nil _ _ _⟩
    · intro b hba _
      simp only [zlist_push_front, hhd']
      exact hupd_ne _ _ _ hba
    · simp only [zlist_push_front, hhd']
      simp [vals, getVal, hupd_self]
  | cons x rest =>
    -- non-empty list: the l->head == some x branch
    have hhd' : l.head = some x := hhd
    have hxa : x ≠ a := fun hx => hams (hx ▸ (by simp : x ∈ x :: rest))
    obtain ⟨y, htl'⟩ : ∃ y, l.tail = some y := by
      rw [htl]
      rcases List.eq_nil_or_concat rest with rfl | ⟨s', t', hns⟩
      · exact ⟨x, rfl⟩
      · rw [List.concat_eq_append] at hns
        subst hns
        refine ⟨t', ?_⟩
        show lastOr (s' ++ [t']) (some x) = some t'
        rw [lastOr_append]
        rfl
    have hh1a : hupd h a (some { prev := none, next := some x, value := v }) a
        = some { prev := none, next := some x, value := v } := hupd_self _ _ _
    have hseg1 :
        dllSeg (hupd h a (some { prev := none, next := some x, value := v }))
          none (x :: rest) none :=
      dllSeg_congr (fun b hb => hupd_ne _ _ _ (fun hx => hams (hx ▸ hb))) hseg
    have hseg2 :
        dllSeg (setPrev (hupd h a (some { prev := none, next := some x, value := v }))
            x (some a)) (some a) (x :: rest) none :=
      dllSeg_setPrev_head hseg1 hnd (some a)
    have hh2a :
        setPrev (hupd h a (some { prev := none, next := some x, value := v }))
          x (some a) a = some { prev := none, next := some x, value := v } := by
      rw [setPrev_ne _ _ _ (Ne.symm hxa)]
      exact hh1a
    refine ⟨rfl, ?_, ?_, ?_⟩
    · simp only [zlist_push_front, hhd', htl']
      refine ⟨hndup, ?_, rfl, ?_, ?_⟩
      · exact ⟨_, hh2a, rfl, rfl, hseg2⟩
      · rw [htl'.symm.trans htl]
        rfl
      · rw [hlen]
        simp
    · intro b hba hbh
      simp only [zlist_push_front, hhd']
      have hbx : b ≠ x := fun hx => hbh (by rw [hx, hhd'])
      rw [setPrev_ne _ _ _ hbx, hupd_ne _ _ _ hba]
    · simp only [zlist_push_front, hhd']
      have hva :
          getVal (setPrev (hupd h a (some { prev := none, next := some x, value := v }))
            x (some a)) a = v := by
        simp [getVal, hh2a]
      have hgv : ∀ b ∈ x :: rest,
          getVal (setPrev (hupd h a (some { prev := none, next := some x, value := v }))
            x (some a)) b = getVal h b := by
        intro b hb
        have hba : b ≠ a := fun hx => hams (hx ▸ hb)
        rw [getVal_setPrev, getVal_hupd_ne _ _ _ hba]
      have hrestv : List.map (getVal (setPrev
            (hupd h a (some { prev := none, next := some x, value := v })) x (some a))) rest
          = List.map (getVal h) rest :=
        List.map_congr_left (fun b hb => hgv b (List.mem_cons_of_mem _ hb))
      have hvx : getVal (setPrev
            (hupd h a (some { prev := none, next := some x, value := v })) x (some a)) x
          = getVal h x := hgv x (by simp)
      simp [vals, hva, hvx, hrestv]

/-! ## The unlink step shared by remove_node and detach_node

`zlist_remove_node` and `zlist_detach_node` perform the same four-branch
unlink surgery before freeing (resp. isolating) the node; these definitions
name that shared prefix, and `remove_node_eq` / `detach_node_eq` show the
operations are definitionally the unlink followed by the final step. -/

def unlinkHeap (h : Heap) (a : Nat) : Heap :=
  let h1 := match getPrev h a with
    | some p => setNext h p (getNext h a)
    | none => h
  match getNext h1 a with
  | some q => setPrev h1 q (getPrev h1 a)
  | none => h1

def unlinkHead (h : Heap) (l : ZList) (a : Nat) : Option Nat :=
  match getPrev h a with
  | some _ => l.head
  | none => getNext h a

def unlinkTail (h : Heap) (l : ZList) (a : Nat) : Option Nat :=
  let h1 := match getPrev h a with
    | some p => setNext h p (getNext h a)
    | none => h
  match getNext h1 a with
  | some _ => l.tail
  | none => getPrev h1 a

theorem remove_node_eq (h : Heap) (l : ZList) (a : Nat) :
    zlist_remove_node h l (some a) =
      (hupd (unlinkHeap h a) a none,
       ⟨unlinkHead h l a, unlinkTail h l a, l.length - 1⟩) := rfl

theorem detach_node_eq (h : Heap) (l : ZList) (a : Nat) :
    zlist_detach_node h l (some a) =
      ((match unlinkHeap h a a with
        | some nd =>
          hupd (unlinkHeap h a) a (some { prev := none, next := none, value := nd.value })
        | none => unlinkHeap h a),
       ⟨unlinkHead h l a, unlinkTail h l a, l.length - 1⟩, some a) := rfl

theorem getNext_setNext_ne (h : Heap) (p : Nat) (nn : Option Nat) {a : Nat}
    (ha : a ≠ p) : getNext (setNext h p nn) a = getNext h a := by
  unfold getNext
  rw [setNext_ne _ _ _ ha]

theorem getPrev_setNext_ne (h : Heap) (p : Nat) (nn : Option Nat) {a : Nat}
    (ha : a ≠ p) : getPrev (setNext h p nn) a = getPrev h a := by
  unfold getPrev
  rw [setNext_ne _ _ _ ha]

theorem getNext_setPrev_ne (h : Heap) (p : Nat) (nn : Option Nat) {a : Nat}
    (ha : a ≠ p) : getNext (setPrev h p nn) a = getNext h a := by
  unfold getNext
  rw [setPrev_ne _ _ _ ha]

theorem getPrev_setPrev_ne (h : Heap) (p : Nat) (nn : Option Nat) {a : Nat}
    (ha : a ≠ p) : getPrev (setPrev h p nn) a = getPrev h a := by
  unfold getPrev
  rw [setPrev_ne _ _ _ ha]

theorem lastOr_of_ne_nil {ns : List Nat} (hne : ns ≠ []) (x y : Option Nat) :
    lastOr ns x = lastOr ns y := by
  cases ns with
  | nil => exact absurd rfl hne
  | cons a rest => rfl

theorem unlink_spec {h : Heap} {l : ZList} {s t : List Nat} {a : Nat}
    (hrep : represents h l (s ++ a :: t)) :
    dllSeg (unlinkHeap h a) none (s ++ t) none ∧
    unlinkHead h l a = hdOr (s ++ t) none ∧
    unlinkTail h l a = lastOr (s ++ t) none ∧
    unlinkHeap h a a = h a ∧
    (∀ b ∈ s ++ t, getVal (unlinkHeap h a) b = getVal h b) := by
  obtain ⟨hnd, hseg, hhd, htl, hlen⟩ := hrep
  obtain ⟨hnds, hndat, hdisj⟩ := List.nodup_append.mp hnd
  obtain ⟨hat, hndt⟩ := List.nodup_cons.mp hndat
  have hsa : a ∉ s := fun hx => hdisj hx (List.mem_cons_self a t)
  have hst : ∀ b ∈ s, b ∉ t := fun b hb hbt => hdisj hb (List.mem_cons_of_mem _ hbt)
  rw [dllSeg_append] at hseg
  obtain ⟨hsegs, hsegat⟩ := hseg
  obtain ⟨nda, hda, hprev, hnext, hsegt⟩ := hsegat
  have hgp : getPrev h a = lastOr s none := by simp [getPrev, hda, hprev]
  have hgn : getNext h a = hdOr t none := by simp [getNext, hda, hnext]
  rcases List.eq_nil_or_concat s with rfl | ⟨s0, p, hs⟩
  · -- the n->prev == NULL branch: l->head = n->next
    have hgp0 : getPrev h a = none := hgp
    cases t with
    | nil =>
      -- singleton list; n->next == NULL too
      have hgn0 : getNext h a = none := hgn
      have hHeapEq : unlinkHeap h a = h := by
        simp only [unlinkHeap, hgp0, hgn0]
      refine ⟨?_, ?_, ?_, ?_, ?_⟩
      · rw [hHeapEq]
        exact dllSeg_nil _ _ _
      · simp only [unlinkHead, hgp0, hgn0]
        rfl
      · simp only [unlinkTail, hgp0, hgn0]
        rfl
      · rw [hHeapEq]
      · intro b hb
        simp at hb
    | cons q t1 =>
      have hgnq : getNext h a = some q := hgn
      have haq : a ≠ q := fun hx => hat (hx ▸ List.mem_cons_self q t1)
      have hHeapEq : unlinkHeap h a = setPrev h q none := by
        simp only [unlinkHeap, hgp0, hgnq]
      refine ⟨?_, ?_, ?_, ?_, ?_⟩
      · rw [hHeapEq, List.nil_append]
        exact dllSeg_setPrev_head hsegt hndat.of_cons none
      · simp only [unlinkHead, hgp0, hgnq]
        rfl
      · simp only [unlinkTail, hgp0, hgnq]
        rw [htl, List.nil_append]
        show lastOr (q :: t1) (some a) = lastOr (q :: t1) none
        exact lastOr_of_ne_nil (by simp) _ _
      · rw [hHeapEq]
        exact setPrev_ne _ _ _ haq
      · intro b hb
        rw [hHeapEq, getVal_setPrev]
  · rw [List.concat_eq_append] at hs
    subst hs
    -- the n->prev == some p branch: p->next = n->next
    have hgpp : getPrev h a = some p := by
      rw [hgp, lastOr_append]
      rfl
    have hap : a ≠ p := fun hx => hsa (hx ▸ (by simp : p ∈ s0 ++ [p]))
    cases t with
    | nil =>
      have hgn0 : getNext h a = none := hgn
      have hq1 : getNext (setNext h p none) a = none := by
        rw [getNext_setNext_ne _ _ _ hap, hgn0]
      have hp1 : getPrev (setNext h p none) a = some p := by
        rw [getPrev_setNext_ne _ _ _ hap, hgpp]
      have hHeapEq : unlinkHeap h a = setNext h p none := by
        simp only [unlinkHeap, hgpp, hgn0, hq1]
      refine ⟨?_, ?_, ?_, ?_, ?_⟩
      · rw [hHeapEq, List.append_nil]
        exact dllSeg_setNext_last hsegs hnds none
      · simp only [unlinkHead, hgpp]
        rw [hhd, List.append_nil, hdOr_append]
        exact hdOr_of_ne_nil (by simp) _ _
      · simp only [unlinkTail, hgpp, hgn0, hq1, hp1]
        rw [List.append_nil, lastOr_append]
        rfl
      · rw [hHeapEq]
        exact setNext_ne _ _ _ hap
      · intro b hb
        rw [hHeapEq, getVal_setNext]
    | cons q t1 =>
      have hgnq : getNext h a = some q := hgn
      have haq : a ≠ q := fun hx => hat (hx ▸ List.mem_cons_self q t1)
      have hpq : p ≠ q := fun hx =>
        hst p (by simp) (hx ▸ List.mem_cons_self q t1)
      have hq1 : getNext (setNext h p (some q)) a = some q := by
        rw [getNext_setNext_ne _ _ _ hap, hgnq]
      have hp1 : getPrev (setNext h p (some q)) a = some p := by
        rw [getPrev_setNext_ne _ _ _ hap, hgpp]
      have hHeapEq : unlinkHeap h a = setPrev (setNext h p (some q)) q (some p) := by
        simp only [unlinkHeap, hgpp, hgnq, hq1, hp1]
      refine ⟨?_, ?_, ?_, ?_, ?_⟩
      · rw [hHeapEq, dllSeg_append]
        constructor
        · -- the prefix s, retargeted to point at q
          have hs1 : dllSeg (setNext h p (some q)) none (s0 ++ [p]) (some q) :=
            dllSeg_setNext_last hsegs hnds (some q)
          refine dllSeg_congr (fun b hb => ?_) hs1
          have hbq : b ≠ q := fun hx =>
            hst b hb (hx ▸ List.mem_cons_self q t1)
          exact setPrev_ne _ _ _ hbq
        · -- the suffix t, with q's prev retargeted to p
          have ht1 : dllSeg (setNext h p (some q)) (some a) (q :: t1) none := by
            refine dllSeg_congr (fun b hb => ?_) hsegt
            have hbp : b ≠ p := fun hx => hst p (by simp) (hx ▸ hb)
            exact setNext_ne _ _ _ hbp
          have ht2 : dllSeg (setPrev (setNext h p (some q)) q (some p))
              (some p) (q :: t1) none :=
            dllSeg_setPrev_head ht1 hndat.of_cons (some p)
          have hlast : lastOr (s0 ++ [p]) none = some p := by
            rw [lastOr_append]
            rfl
          rw [hlast]
          simpa [hdOr] using ht2
      · simp only [unlinkHead, hgpp]
        have e1h : l.head = hdOr (s0 ++ [p]) none := by
          rw [hhd, hdOr_append]
          refine hdOr_of_ne_nil ?_ _ _
          simp
        have e2h : hdOr ((s0 ++ [p]) ++ (q :: t1)) none = hdOr (s0 ++ [p]) none := by
          rw [hdOr_append]
          refine hdOr_of_ne_nil ?_ _ _
          simp
        rw [e1h, e2h]
      · simp only [unlinkTail, hgpp, hgnq, hq1]
        have e1t : l.tail = lastOr (q :: t1) none := by
          rw [htl, lastOr_append]
          show lastOr (q :: t1) (some a) = lastOr (q :: t1) none
          exact lastOr_of_ne_nil (by simp) _ _
        have e2t : lastOr ((s0 ++ [p]) ++ (q :: t1)) none = lastOr (q :: t1) none := by
          rw [lastOr_append]
          exact lastOr_of_ne_nil (by simp) _ _
        rw [e1t, e2t]
      · rw [hHeapEq, setPrev_ne _ _ _ haq, setNext_ne _ _ _ hap]
      · intro b hb
        rw [hHeapEq, getVal_setPrev, getVal_setNext]

theorem remove_node_spec {h : Heap} {l : ZList} {s t : List Nat} {a : Nat}
    (hrep : represents h l (s ++ a :: t)) :
    represents (zlist_remove_node h l (some a)).1
      (zlist_remove_node h l (some a)).2 (s ++ t) ∧
    (zlist_remove_node h l (some a)).1 a = none ∧
    vals (zlist_remove_node h l (some a)).1 (s ++ t) = vals h s ++ vals h t := by
  obtain ⟨hu_seg, hu_head, hu_tail, hu_a, hu_val⟩ := unlink_spec hrep
  obtain ⟨hnd, hseg0, hhd, htl, hlen⟩ := hrep
  obtain ⟨hnds, hndat, hdisj⟩ := List.nodup_append.mp hnd
  obtain ⟨hat, hndt⟩ := List.nodup_cons.mp hndat
  have hndst : (s ++ t).Nodup := List.nodup_append.mpr ⟨hnds, hndt,
    fun b hb hbt => hdisj hb (List.mem_cons_of_mem _ hbt)⟩
  have hsa : a ∉ s := fun hx => hdisj hx (List.mem_cons_self a t)
  have hast : a ∉ s ++ t := by
    intro hx
    rcases List.mem_append.mp hx with hx | hx
    · exact hsa hx
    · exact hat hx
  simp only [remove_node_eq]
  refine ⟨⟨hndst, ?_, hu_head, hu_tail, ?_⟩, hupd_self _ _ _, ?_⟩
  · exact dllSeg_congr (fun b hb => hupd_ne _ _ _ (fun (hx : b = a) => hast (hx ▸ hb))) hu_seg
  · rw [hlen]
    simp only [List.length_append, List.length_cons]
    omega
  · have hv : vals (hupd (unlinkHeap h a) a none) (s ++ t) = vals h (s ++ t) :=
      vals_congr (fun b hb => by
        rw [getVal_hupd_ne _ _ _ (fun (hx : b = a) => hast (hx ▸ hb)), hu_val b hb])
    rw [hv, vals, List.map_append]
    rfl

theorem detach_node_spec {h : Heap} {l : ZList} {s t : List Nat} {a : Nat}
    (hrep : represents h l (s ++ a :: t)) :
    (zlist_detach_node h l (some a)).2.2 = some a ∧
    represents (zlist_detach_node h l (some a)).1
      (zlist_detach_node h l (some a)).2.1 (s ++ t) ∧
    a ∉ s ++ t ∧
    (zlist_detach_node h l (some a)).1 a =
      some { prev := none, next := none, value := getVal h a } ∧
    vals (zlist_detach_node h l (some a)).1 (s ++ t) = vals h s ++ vals h t ∧
    (zlist_detach_node h l (some a)).2.1.length = l.length - 1 ∧
    l.length = (zlist_detach_node h l (some a)).2.1.length + 1 := by
  obtain ⟨hu_seg, hu_head, hu_tail, hu_a, hu_val⟩ := unlink_spec hrep
  obtain ⟨hnd, hseg0, hhd, htl, hlen⟩ := hrep
  obtain ⟨hnds, hndat, hdisj⟩ := List.nodup_append.mp hnd
  obtain ⟨hat, hndt⟩ := List.nodup_cons.mp hndat
  have hndst : (s ++ t).Nodup := List.nodup_append.mpr ⟨hnds, hndt,
    fun b hb hbt => hdisj hb (List.mem_cons_of_mem _ hbt)⟩
  have hsa : a ∉ s := fun hx => hdisj hx (List.mem_cons_self a t)
  have hast : a ∉ s ++ t := by
    intro hx
    rcases List.mem_append.mp hx with hx | hx
    · exact hsa hx
    · exact hat hx
  obtain ⟨nda, hda⟩ := dllSeg_mem_isSome hseg0 a (by simp)
  have hua : unlinkHeap h a a = some nda := hu_a.trans hda
  have hgva : getVal h a = nda.value := by simp [getVal, hda]
  simp only [detach_node_eq, hua]
  refine ⟨trivial, ⟨hndst, ?_, hu_head, hu_tail, ?_⟩, hast, ?_, ?_, ?_, ?_⟩
  · exact dllSeg_congr (fun b hb => hupd_ne _ _ _ (fun (hx : b = a) => hast (hx ▸ hb))) hu_seg
  · rw [hlen]
    simp only [List.length_append, List.length_cons]
    omega
  · rw [hupd_self, hgva]
  · have hv : vals (hupd (unlinkHeap h a)
        a (some { prev := none, next := none, value := nda.value })) (s ++ t)
        = vals h (s ++ t) :=
      vals_congr (fun b hb => by
        rw [getVal_hupd_ne _ _ _ (fun (hx : b = a) => hast (hx ▸ hb)), hu_val b hb])
    rw [hv, vals, List.map_append]
    rfl
  · trivial
  · rw [hlen]
    simp only [List.length_append, List.length_cons]
    omega

/-! ## Specification of the pop operations -/

theorem pop_back_empty (h : Heap) (l : ZList) (htl : l.tail = none) :
    zlist_pop_back h l = (h, l) := by
  simp [zlist_pop_back, htl]

theorem pop_front_empty (h : Heap) (l : ZList) (hhd : l.head = none) :
    zlist_pop_front h l = (h, l) := by
  simp [zlist_pop_front, hhd]

theorem pop_back_spec {h : Heap} {l : ZList} {s : List Nat} {t : Nat}
    (hrep : represents h l (s ++ [t])) :
    represents (zlist_pop_back h l).1 (zlist_pop_back h l).2 s ∧
    (zlist_pop_back h l).1 t = none ∧
    vals (zlist_pop_back h l).1 s = vals h s := by
  obtain ⟨hnd, hseg, hhd, htl, hlen⟩ := hrep
  have htl' : l.tail = some t := by
    rw [htl, lastOr_append]
    rfl
  rw [dllSeg_append] at hseg
  obtain ⟨hsegs, ht⟩ := hseg
  rw [dllSeg_singleton] at ht
  obtain ⟨ndt, hht, htp, -⟩ := ht
  have hgp : getPrev h t = lastOr s none := by simp [getPrev, hht, htp]
  have hts : t ∉ s := fun hx =>
    List.disjoint_of_nodup_append hnd hx (by simp)
  obtain ⟨hnds, -, -⟩ := List.nodup_append.mp hnd
  rcases List.eq_nil_or_concat s with rfl | ⟨s0, u, hs⟩
  · -- popping the only node
    have hgp0 : getPrev h t = none := hgp
    simp only [zlist_pop_back, htl', hgp0]
    refine ⟨⟨List.nodup_nil, dllSeg_nil _ _ _, rfl, rfl, ?_⟩, hupd_self _ _ _, ?_⟩
    · rw [hlen]
      rfl
    · simp [vals]
  · rw [List.concat_eq_append] at hs
    subst hs
    have hgpu : getPrev h t = some u := by
      rw [hgp, lastOr_append]
      rfl
    have hut : u ≠ t := fun hx => hts (hx ▸ (by simp : u ∈ s0 ++ [u]))
    simp only [zlist_pop_back, htl', hgpu]
    have hseg1 : dllSeg (setNext h u none) none (s0 ++ [u]) none :=
      dllSeg_setNext_last hsegs hnds none
    refine ⟨⟨hnds, ?_, ?_, ?_, ?_⟩, ?_, ?_⟩
    · exact dllSeg_congr
        (fun b hb => hupd_ne _ _ _ (fun (hx : b = t) => hts (hx ▸ hb))) hseg1
    · rw [hhd, hdOr_append]
      refine (hdOr_of_ne_nil ?_ _ _).symm
      simp
    · rw [lastOr_append]
      rfl
    · rw [hlen]
      simp
    · exact hupd_self _ _ _
    · refine vals_congr (fun b hb => ?_)
      rw [getVal_hupd_ne _ _ _ (fun (hx : b = t) => hts (hx ▸ hb)), getVal_setNext]

theorem pop_front_spec {h : Heap} {l : ZList} {x : Nat} {rest : List Nat}
    (hrep : represents h l (x :: rest)) :
    represents (zlist_pop_front h l).1 (zlist_pop_front h l).2 rest ∧
    (zlist_pop_front h l).1 x = none ∧
    vals (zlist_pop_front h l).1 rest = vals h rest := by
  obtain ⟨hnd, hseg, hhd, htl, hlen⟩ := hrep
  have hhd' : l.head = some x := hhd
  obtain ⟨ndx, hhx, hxp, hxn, hsegr⟩ := hseg
  have hgn : getNext h x = hdOr rest none := by simp [getNext, hhx, hxn]
  obtain ⟨hxr, hndr⟩ := List.nodup_cons.mp hnd
  cases rest with
  | nil =>
    have hgn0 : getNext h x = none := hgn
    simp only [zlist_pop_front, hhd', hgn0]
    refine ⟨⟨List.nodup_nil, dllSeg_nil _ _ _, rfl, rfl, ?_⟩, hupd_self _ _ _, ?_⟩
    · rw [hlen]
      rfl
    · simp [vals]
  | cons q r1 =>
    have hgnq : getNext h x = some q := hgn
    have hqx : q ≠ x := fun hx2 => hxr (hx2 ▸ List.mem_cons_self q r1)
    simp only [zlist_pop_front, hhd', hgnq]
    have hseg1 : dllSeg (setPrev h q none) none (q :: r1) none :=
      dllSeg_setPrev_head hsegr hndr none
    refine ⟨⟨hndr, ?_, rfl, ?_, ?_⟩, ?_, ?_⟩
    · exact dllSeg_congr
        (fun b hb => hupd_ne _ _ _ (fun (hx2 : b = x) => hxr (hx2 ▸ hb))) hseg1
    · rw [htl]
      show lastOr (q :: r1) (some x) = lastOr (q :: r1) none
      exact lastOr_of_ne_nil (by simp) _ _
    · rw [hlen]
      rfl
    · exact hupd_self _ _ _
    · refine vals_congr (fun b hb => ?_)
      rw [getVal_hupd_ne _ _ _ (fun (hx2 : b = x) => hxr (hx2 ▸ hb)), getVal_setPrev]

/-! ## Specification of insert_after and clear -/

theorem nodup_insert_mid {s t : List Nat} {pa a : Nat}
    (hnd : (s ++ pa :: t).Nodup) (hans : a ∉ s ++ pa :: t) :
    (s ++ pa :: a :: t).Nodup := by
  obtain ⟨hnds, hndpt, hdisj⟩ := List.nodup_append.mp hnd
  obtain ⟨hpat, hndt⟩ := List.nodup_cons.mp hndpt
  have hapa : a ≠ pa := fun hx => hans (by simp [hx])
  have hat : a ∉ t := fun hx => hans (by simp [hx])
  have has : a ∉ s := fun hx => hans (by simp [hx])
  refine List.nodup_append.mpr ⟨hnds, ?_, ?_⟩
  · refine List.nodup_cons.mpr ⟨?_, List.nodup_cons.mpr ⟨hat, hndt⟩⟩
    intro hx
    rcases List.mem_cons.mp hx with hx | hx
    · exact hapa hx.symm
    · exact hpat hx
  · intro b hb hbx
    rcases List.mem_cons.mp hbx with hbx | hbx
    · exact hdisj hb (by simp [hbx])
    · rcases List.mem_cons.mp hbx with hbx | hbx
      · exact has (hbx ▸ hb)
      · exact hdisj hb (by simp [hbx])

theorem getNext_hupd_ne (h : Heap) (a : Nat) (x : Option Node) {b : Nat}
    (hb : b ≠ a) : getNext (hupd h a x) b = getNext h b := by
  unfold getNext
  rw [hupd_ne _ _ _ hb]

theorem getPrev_hupd_ne (h : Heap) (a : Nat) (x : Option Node) {b : Nat}
    (hb : b ≠ a) : getPrev (hupd h a x) b = getPrev h b := by
  unfold getPrev
  rw [hupd_ne _ _ _ hb]

theorem insert_after_spec {h : Heap} {l : ZList} {s t : List Nat} {pa : Nat}
    (v : Int) {a : Nat} (hrep : represents h l (s ++ pa :: t)) (hfresh : h a = none) :
    (zlist_insert_after h l (some pa) v (some a)).2.2 = Z_OK ∧
    represents (zlist_insert_after h l (some pa) v (some a)).1
      (zlist_insert_after h l (some pa) v (some a)).2.1 (s ++ pa :: a :: t) := by
  obtain ⟨hnd, hseg, hhd, htl, hlen⟩ := hrep
  have hans : a ∉ s ++ pa :: t := dllSeg_fresh_not_mem hseg hfresh
  have hndup : (s ++ pa :: a :: t).Nodup := nodup_insert_mid hnd hans
  have hapa : a ≠ pa := fun hx => hans (by simp [hx])
  have hat : a ∉ t := fun hx => hans (by simp [hx])
  have has : a ∉ s := fun hx => hans (by simp [hx])
  obtain ⟨hnds, hndpt, hdisj⟩ := List.nodup_append.mp hnd
  obtain ⟨hpat, hndt⟩ := List.nodup_cons.mp hndpt
  have hpas : pa ∉ s := fun hx => hdisj hx (List.mem_cons_self pa t)
  rw [dllSeg_append] at hseg
  obtain ⟨hsegs, hsegpt⟩ := hseg
  obtain ⟨ndp, hdp, hpp, hpn, hsegt⟩ := hsegpt
  have hgn : getNext h pa = hdOr t none := by simp [getNext, hdp, hpn]
  cases t with
  | nil =>
    -- prev_node->next == NULL branch: l->tail = n
    have hgn0 : getNext h pa = none := hgn
    have hgn1 : getNext (hupd h a
        (some { prev := some pa, next := none, value := v })) pa = none :=
      (getNext_hupd_ne h a _ (Ne.symm hapa)).trans hgn0
    simp only [zlist_insert_after, hgn0, hgn1]
    refine ⟨trivial, hndup, ?_, ?_, ?_, ?_⟩
    · -- chain: s ++ pa :: a :: []
      rw [dllSeg_append]
      constructor
      · refine dllSeg_congr (fun b hb => ?_) hsegs
        have hbpa : b ≠ pa := fun hx => hpas (hx ▸ hb)
        have hba : b ≠ a := fun hx => has (hx ▸ hb)
        rw [setNext_ne _ _ _ hbpa, hupd_ne _ _ _ hba]
      · have hpa3 : setNext (hupd h a
            (some { prev := some pa, next := none, value := v })) pa (some a) pa
            = some { ndp with next := some a } := by
          rw [setNext_self]
          rw [hupd_ne _ _ _ (Ne.symm hapa)]
          exact hdp
        have ha3 : setNext (hupd h a
            (some { prev := some pa, next := none, value := v })) pa (some a) a
            = some { prev := some pa, next := none, value := v } := by
          rw [setNext_ne _ _ _ hapa]
          exact hupd_self _ _ _
        exact ⟨_, hpa3, hpp, rfl, _, ha3, rfl, rfl, dllSeg_nil _ _ _⟩
    · rw [hhd, hdOr_append, hdOr_append]
      rfl
    · rw [lastOr_append]
      rfl
    · rw [hlen]
      simp only [List.length_append, List.length_cons]
      omega
  | cons q t1 =>
    have hgnq : getNext h pa = some q := hgn
    have haq : a ≠ q := fun hx => hat (hx ▸ List.mem_cons_self q t1)
    have hpaq : pa ≠ q := fun hx => hpat (hx ▸ List.mem_cons_self q t1)
    have hqs : q ∉ s := fun hx =>
      hdisj hx (List.mem_cons_of_mem _ (List.mem_cons_self q t1))
    have hgn1 : getNext (hupd h a
        (some { prev := some pa, next := some q, value := v })) pa = some q :=
      (getNext_hupd_ne h a _ (Ne.symm hapa)).trans hgnq
    simp only [zlist_insert_after, hgnq, hgn1]
    refine ⟨trivial, hndup, ?_, ?_, ?_, ?_⟩
    · rw [dllSeg_append]
      constructor
      · refine dllSeg_congr (fun b hb => ?_) hsegs
        have hbpa : b ≠ pa := fun hx => hpas (hx ▸ hb)
        have hba : b ≠ a := fun hx => has (hx ▸ hb)
        have hbq : b ≠ q := fun hx => hqs (hx ▸ hb)
        rw [setNext_ne _ _ _ hbpa, setPrev_ne _ _ _ hbq, hupd_ne _ _ _ hba]
      · have hpa3 : setNext (setPrev (hupd h a
            (some { prev := some pa, next := some q, value := v })) q (some a))
            pa (some a) pa = some { ndp with next := some a } := by
          rw [setNext_self]
          rw [setPrev_ne _ _ _ hpaq, hupd_ne _ _ _ (Ne.symm hapa)]
          exact hdp
        have ha3 : setNext (setPrev (hupd h a
            (some { prev := some pa, next := some q, value := v })) q (some a))
            pa (some a) a = some { prev := some pa, next := some q, value := v } := by
          rw [setNext_ne _ _ _ hapa, setPrev_ne _ _ _ haq]
          exact hupd_self _ _ _
        have hsegq : dllSeg (setNext (setPrev (hupd h a
            (some { prev := some pa, next := some q, value := v })) q (some a))
            pa (some a)) (some a) (q :: t1) none := by
          have s1 : dllSeg (hupd h a
              (some { prev := some pa, next := some q, value := v }))
              (some pa) (q :: t1) none :=
            dllSeg_congr (fun b hb => hupd_ne _ _ _
              (fun (hx : b = a) => hat (hx ▸ hb))) hsegt
          have s2 : dllSeg (setPrev (hupd h a
              (some { prev := some pa, next := some q, value := v })) q (some a))
              (some a) (q :: t1) none :=
            dllSeg_setPrev_head s1 hndt (some a)
          refine dllSeg_congr (fun b hb => ?_) s2
          have hbpa : b ≠ pa := fun hx => hpat (hx ▸ hb)
          rw [setNext_ne _ _ _ hbpa]
        exact ⟨_, hpa3, hpp, rfl, _, ha3, rfl, rfl, hsegq⟩
    · rw [hhd, hdOr_append, hdOr_append]
      rfl
    · rw [htl, lastOr_append, lastOr_append]
      show lastOr (q :: t1) (some pa) = lastOr (q :: t1) (some a)
      exact lastOr_of_ne_nil (by simp) _ _
    · rw [hlen]
      simp only [List.length_append, List.length_cons]
      omega

theorem clearNodes_spec {h : Heap} {pr : Option Nat} {ns : List Nat}
    (hseg : dllSeg h pr ns none) (hnd : ns.Nodup) :
    ∀ b, clearNodes h (hdOr ns none) ns.length b = if b ∈ ns then none else h b := by
  induction ns generalizing h pr with
  | nil =>
    intro b
    simp [clearNodes]
  | cons a rest ih =>
    obtain ⟨nd, ha, hp, hn, hrest⟩ := hseg
    intro b
    have hanr : a ∉ rest := (List.nodup_cons.mp hnd).1
    have hgn : getNext h a = hdOr rest none := by simp [getNext, ha, hn]
    have hrest1 : dllSeg (hupd h a none) (some a) rest none :=
      dllSeg_congr (fun c hc => hupd_ne _ _ _ (fun (hx : c = a) => hanr (hx ▸ hc)))
        hrest
    have hstep : clearNodes h (hdOr (a :: rest) none) (a :: rest).length =
        clearNodes (hupd h a none) (hdOr rest none) rest.length := by
      show clearNodes h (some a) (rest.length + 1) = _
      simp [clearNodes, hgn]
    rw [hstep, ih hrest1 (List.nodup_cons.mp hnd).2 b]
    by_cases hba : b = a
    · subst hba
      simp [hanr, hupd_self]
    · simp [List.mem_cons, hba, hupd_ne _ _ _ hba]

theorem clear_spec {h : Heap} {l : ZList} {ns : List Nat}
    (hrep : represents h l ns) :
    (zlist_clear h l).2 = ⟨none, none, 0⟩ ∧
    ∀ b, (zlist_clear h l).1 b = if b ∈ ns then none else h b := by
  obtain ⟨hnd, hseg, hhd, htl, hlen⟩ := hrep
  refine ⟨rfl, ?_⟩
  intro b
  show clearNodes h l.head l.length b = _
  rw [hhd, hlen]
  exact clearNodes_spec hseg hnd b

/-! ## Specification of splice -/

theorem ZList_ext {l1 l2 : ZList} (h1 : l1.head = l2.head)
    (h2 : l1.tail = l2.tail) (h3 : l1.length = l2.length) : l1 = l2 := by
  cases l1
  cases l2
  simp_all

theorem ZList_eq_empty {l : ZList} (h1 : l.head = none) (h2 : l.tail = none)
    (h3 : l.length = 0) : l = ⟨none, none, 0⟩ := by
  cases l
  simp_all

theorem splice_same (h : Heap) (dest src : ZList) :
    zlist_splice h dest src true = (h, dest, src) := rfl

theorem splice_spec {h : Heap} {A B : ZList} {nsa nsb : List Nat}
    (hra : represents h A nsa) (hrb : represents h B nsb)
    (hdisj : nsa.Disjoint nsb) :
    represents (zlist_splice h A B false).1
      (zlist_splice h A B false).2.1 (nsa ++ nsb) ∧
    (zlist_splice h A B false).2.2 = ⟨none, none, 0⟩ ∧
    vals (zlist_splice h A B false).1 (nsa ++ nsb) = vals h nsa ++ vals h nsb ∧
    (∀ b, some b ≠ A.tail → some b ≠ B.head →
      (zlist_splice h A B false).1 b = h b) := by
  obtain ⟨hnda, hsega, hhda, htla, hlena⟩ := hra
  obtain ⟨hndb, hsegb, hhdb, htlb, hlenb⟩ := hrb
  cases nsb with
  | nil =>
    -- src->head == NULL: early return, src already empty
    have hhdb' : B.head = none := hhdb
    have hsp : zlist_splice h A B false = (h, A, B) := by
      simp [zlist_splice, hhdb']
    simp only [hsp]
    refine ⟨?_, ?_, ?_, ?_⟩
    · rw [List.append_nil]
      exact ⟨hnda, hsega, hhda, htla, hlena⟩
    · exact ZList_eq_empty hhdb' htlb hlenb
    · simp [vals]
    · intro b _ _
      trivial
  | cons q t1 =>
    have hhdb' : B.head = some q := hhdb
    rcases List.eq_nil_or_concat nsa with rfl | ⟨s0, dt, hs⟩
    · -- dest->head == NULL: *dest = *src
      have hhda' : A.head = none := hhda
      have hsp : zlist_splice h A B false = (h, B, ⟨none, none, 0⟩) := by
        simp [zlist_splice, hhdb', hhda']
      simp only [hsp]
      refine ⟨⟨hndb, hsegb, hhdb, htlb, hlenb⟩, trivial, ?_, ?_⟩
      · simp [vals]
      · intro b _ _
        trivial
    · rw [List.concat_eq_append] at hs
      subst hs
      -- general case: dest->tail->next = src->head, src->head->prev = dest->tail
      have htla' : A.tail = some dt := by
        rw [htla, lastOr_append]
        rfl
      obtain ⟨x, hhda'⟩ : ∃ x, A.head = some x := by
        rw [hhda]
        cases s0 with
        | nil => exact ⟨dt, rfl⟩
        | cons c s' => exact ⟨c, rfl⟩
      have hdta : dt ∈ s0 ++ [dt] := by simp
      have hqb : q ∈ q :: t1 := List.mem_cons_self q t1
      have hqa : q ∉ s0 ++ [dt] := fun hx => hdisj hx hqb
      have hdtb : dt ∉ q :: t1 := fun hx => hdisj hdta hx
      have hsp : zlist_splice h A B false =
          (setPrev (setNext h dt (some q)) q (some dt),
           ⟨A.head, B.tail, A.length + B.length⟩, ⟨none, none, 0⟩) := by
        simp [zlist_splice, hhdb', hhda', htla']
      simp only [hsp]
      have hndab : ((s0 ++ [dt]) ++ q :: t1).Nodup :=
        List.nodup_append.mpr ⟨hnda, hndb, hdisj⟩
      have e2 : hdOr ((s0 ++ [dt]) ++ (q :: t1)) none = hdOr (s0 ++ [dt]) none := by
        rw [hdOr_append]
        exact hdOr_of_ne_nil (by simp) _ _
      have e3 : lastOr ((s0 ++ [dt]) ++ (q :: t1)) none = lastOr (q :: t1) none := by
        rw [lastOr_append]
        exact lastOr_of_ne_nil (by simp) _ _
      refine ⟨⟨hndab, ?_, ?_, ?_, ?_⟩, trivial, ?_, ?_⟩
      · rw [dllSeg_append]
        constructor
        · have s1 : dllSeg (setNext h dt (some q)) none (s0 ++ [dt]) (some q) :=
            dllSeg_setNext_last hsega hnda (some q)
          refine dllSeg_congr (fun b hb => ?_) s1
          have hbq : b ≠ q := fun hx => hqa (hx ▸ hb)
          rw [setPrev_ne _ _ _ hbq]
        · have hlast : lastOr (s0 ++ [dt]) none = some dt := by
            rw [lastOr_append]
            rfl
          rw [hlast]
          have s2 : dllSeg (setNext h dt (some q)) none (q :: t1) none := by
            refine dllSeg_congr (fun b hb => ?_) hsegb
            have hbdt : b ≠ dt := fun hx => hdtb (hx ▸ hb)
            rw [setNext_ne _ _ _ hbdt]
          exact dllSeg_setPrev_head s2 hndb (some dt)
      · rw [hhda]
        exact e2.symm
      · rw [htlb]
        exact e3.symm
      · rw [hlena, hlenb]
        simp only [List.length_append, List.length_cons]
      · have hv : ∀ b, getVal (setPrev (setNext h dt (some q)) q (some dt)) b
            = getVal h b := fun b => by rw [getVal_setPrev, getVal_setNext]
        rw [vals_congr (fun b _ => hv b), vals, List.map_append]
        rfl
      · intro b hbt hbh
        have hbdt : b ≠ dt := fun hx => hbt (by rw [hx, htla'])
        have hbq : b ≠ q := fun hx => hbh (by rw [hx, hhdb'])
        rw [setPrev_ne _ _ _ hbq, setNext_ne _ _ _ hbdt]

/-! ## Specification of reverse -/

/-- The per-node effect of the reverse loop body: swap `prev` and `next`. -/
def swapNode (nd : Node) : Node := ⟨nd.next, nd.prev, nd.value⟩

theorem swapNode_swapNode (nd : Node) : swapNode (swapNode nd) = nd := rfl

theorem dllSeg_swap {h h2 : Heap} {pr nx : Option Nat} {ns : List Nat}
    (hseg : dllSeg h pr ns nx)
    (hagree : ∀ b ∈ ns, h2 b = (h b).map swapNode) :
    dllSeg h2 nx ns.reverse pr := by
  induction ns generalizing pr with
  | nil => exact dllSeg_nil _ _ _
  | cons a rest ih =>
    obtain ⟨nd, ha, hp, hn, hrest⟩ := hseg
    rw [List.reverse_cons, dllSeg_append]
    constructor
    · exact ih hrest (fun b hb => hagree b (List.mem_cons_of_mem _ hb))
    · rw [dllSeg_singleton]
      refine ⟨swapNode nd, ?_, ?_, ?_⟩
      · rw [hagree a (List.mem_cons_self a rest), ha]
        rfl
      · show nd.next = lastOr rest.reverse nx
        rw [lastOr_reverse]
        exact hn
      · exact hp

theorem reverseLoop_spec {h : Heap} (ns : List Nat) (pr tmp : Option Nat)
    (hseg : dllSeg h pr ns none) (hnd : ns.Nodup) :
    (∀ b, (reverseLoop h (hdOr ns none) tmp ns.length).1 b =
      if b ∈ ns then (h b).map swapNode else h b) ∧
    (ns = [] → (reverseLoop h (hdOr ns none) tmp ns.length).2 = tmp) ∧
    (ns ≠ [] → (reverseLoop h (hdOr ns none) tmp ns.length).2 =
      lastOr ns.dropLast pr) := by
  induction ns generalizing h pr tmp with
  | nil =>
    refine ⟨fun b => by simp [reverseLoop], fun _ => rfl, fun hne => absurd rfl hne⟩
  | cons a rest ih =>
    obtain ⟨nd, ha, hp, hn, hrest⟩ := hseg
    have hanr : a ∉ rest := (List.nodup_cons.mp hnd).1
    have hrest1 : dllSeg (hupd h a (some ⟨nd.next, nd.prev, nd.value⟩))
        (some a) rest none :=
      dllSeg_congr (fun c hc => hupd_ne _ _ _ (fun (hx : c = a) => hanr (hx ▸ hc)))
        hrest
    have hstep : reverseLoop h (hdOr (a :: rest) none) tmp (a :: rest).length =
        reverseLoop (hupd h a (some ⟨nd.next, nd.prev, nd.value⟩))
          (hdOr rest none) nd.prev rest.length := by
      show reverseLoop h (some a) tmp (rest.length + 1) = _
      simp only [reverseLoop, ha]
      rw [hn]
    obtain ⟨ihheap, ihnil, ihcons⟩ :=
      ih (some a) nd.prev hrest1 (List.nodup_cons.mp hnd).2
    refine ⟨?_, ?_, ?_⟩
    · intro b
      rw [hstep, ihheap b]
      by_cases hba : b = a
      · subst hba
        simp [hanr, hupd_self, ha, swapNode]
      · simp [List.mem_cons, hba, hupd_ne _ _ _ hba]
    · intro hx
      exact absurd hx (List.cons_ne_nil a rest)
    · intro _
      rw [hstep]
      cases rest with
      | nil =>
        rw [ihnil rfl]
        exact hp
      | cons c r1 =>
        exact ihcons (List.cons_ne_nil c r1)

theorem reverse_spec {h : Heap} {l : ZList} {ns : List Nat}
    (hrep : represents h l ns) :
    (∀ b, (zlist_reverse h l).1 b =
      if b ∈ ns then (h b).map swapNode else h b) ∧
    represents (zlist_reverse h l).1 (zlist_reverse h l).2 ns.reverse ∧
    (zlist_reverse h l).2.head = l.tail ∧
    (zlist_reverse h l).2.tail = l.head ∧
    (zlist_reverse h l).2.length = l.length ∧
    vals (zlist_reverse h l).1 ns.reverse = (vals h ns).reverse := by
  obtain ⟨hnd, hseg, hhd, htl, hlen⟩ := hrep
  obtain ⟨hloopheap, hloopnil, hloopcons⟩ := reverseLoop_spec ns none none hseg hnd
  -- restate the loop facts with the handle's own fields
  have hH : ∀ b, (reverseLoop h l.head none l.length).1 b =
      if b ∈ ns then (h b).map swapNode else h b := by
    rw [hhd, hlen]
    exact hloopheap
  have hvals : ∀ h2 : Heap,
      (∀ b, h2 b = if b ∈ ns then (h b).map swapNode else h b) →
      vals h2 ns.reverse = (vals h ns).reverse := by
    intro h2 hh2
    rw [vals, vals, ← List.map_reverse]
    refine List.map_congr_left (fun b hb => ?_)
    rw [List.mem_reverse] at hb
    rw [getVal, getVal, hh2 b, if_pos hb]
    cases h b with
    | none => rfl
    | some nd => rfl
  rcases List.eq_nil_or_concat ns with rfl | ⟨s, t, hs⟩
  · -- empty list: temp stays NULL, handle unchanged
    have hT : (reverseLoop h l.head none l.length).2 = none := by
      rw [hhd, hlen]
      exact hloopnil rfl
    have hrev : zlist_reverse h l = ((reverseLoop h l.head none l.length).1, l) := by
      simp only [zlist_reverse, hT]
    simp only [hrev]
    refine ⟨fun b => by rw [hH b], ⟨hnd, ?_, hhd, htl, hlen⟩,
      hhd.trans htl.symm, htl.trans hhd.symm, trivial, hvals _ hH⟩
    refine dllSeg_congr (fun b hb => ?_) hseg
    cases hb
  · rw [List.concat_eq_append] at hs
    subst hs
    have hT : (reverseLoop h l.head none l.length).2 =
        lastOr (s ++ [t]).dropLast none := by
      rw [hhd, hlen]
      exact hloopcons (by simp)
    rcases List.eq_nil_or_concat s with rfl | ⟨s0, u, hs0⟩
    · -- singleton: temp is still NULL, so head/tail are not touched
      have hT0 : (reverseLoop h l.head none l.length).2 = none := by
        rw [hT]
        rfl
      have hrev : zlist_reverse h l =
          ((reverseLoop h l.head none l.length).1, l) := by
        simp only [zlist_reverse, hT0]
      simp only [hrev]
      refine ⟨fun b => hH b, ?_, hhd.trans htl.symm, htl.trans hhd.symm, trivial,
        hvals _ hH⟩
      refine ⟨List.nodup_reverse.mpr hnd, ?_, hhd, htl, hlen⟩
      exact dllSeg_swap hseg (fun b hb => (hH b).trans (if_pos hb))
    · rw [List.concat_eq_append] at hs0
      subst hs0
      -- two or more nodes: temp = u, the old second-to-last node
      have hTu : (reverseLoop h l.head none l.length).2 = some u := by
        rw [hT, List.dropLast_concat, lastOr_append]
        rfl
      obtain ⟨ndu, hdu, hun⟩ :
          ∃ ndu, h u = some ndu ∧ ndu.next = some t := by
        rw [dllSeg_append] at hseg
        obtain ⟨hsegsu, -⟩ := hseg
        rw [dllSeg_append] at hsegsu
        obtain ⟨-, hsegu⟩ := hsegsu
        rw [dllSeg_singleton] at hsegu
        obtain ⟨ndu, hdu, -, hn2⟩ := hsegu
        exact ⟨ndu, hdu, hn2⟩
      have humem : u ∈ (s0 ++ [u]) ++ [t] := by simp
      have hgpu : getPrev (reverseLoop h l.head none l.length).1 u = some t := by
        unfold getPrev
        rw [hH u, if_pos humem, hdu]
        exact hun
      have hrev : zlist_reverse h l =
          ((reverseLoop h l.head none l.length).1,
           { head := some t, tail := l.head, length := l.length }) := by
        simp only [zlist_reverse, hTu, hgpu]
      have htl' : l.tail = some t := by
        rw [htl, lastOr_append]
        rfl
      simp only [hrev]
      refine ⟨fun b => hH b, ?_, htl'.symm, trivial, trivial, hvals _ hH⟩
      refine ⟨List.nodup_reverse.mpr hnd, ?_, ?_, ?_, ?_⟩
      · exact dllSeg_swap hseg (fun b hb => (hH b).trans (if_pos hb))
      · show some t = hdOr ((s0 ++ [u]) ++ [t]).reverse none
        rw [List.reverse_append]
        rfl
      · show l.head = lastOr ((s0 ++ [u]) ++ [t]).reverse none
        rw [lastOr_reverse]
        exact hhd
      · show l.length = ((s0 ++ [u]) ++ [t]).reverse.length
        rw [List.length_reverse]
        exact hlen

/-! ## Operational consequences of the handle invariant -/

theorem lastOr_isSome (ns : List Nat) (a : Nat) :
    (lastOr ns (some a)).isSome := by
  induction ns generalizing a with
  | nil => rfl
  | cons b rest ih =>
    show (lastOr rest (some b)).isSome
    exact ih b

theorem dllSeg_adj_symm {h : Heap} {ns : List Nat}
    (hseg : dllSeg h none ns none) :
    ∀ a ∈ ns, (∀ b, getPrev h a = some b → getNext h b = some a) ∧
              (∀ b, getNext h a = some b → getPrev h b = some a) := by
  intro a hmem
  obtain ⟨s, t, rfl⟩ := List.append_of_mem hmem
  rw [dllSeg_append] at hseg
  obtain ⟨hsegs, hsegat⟩ := hseg
  obtain ⟨nda, hda, hprev, hnext, hsegt⟩ := hsegat
  have hgp : getPrev h a = lastOr s none := by simp [getPrev, hda, hprev]
  have hgn : getNext h a = hdOr t none := by simp [getNext, hda, hnext]
  constructor
  · intro b hb
    rw [hgp] at hb
    rcases List.eq_nil_or_concat s with rfl | ⟨s1, p, hs⟩
    · cases hb
    · rw [List.concat_eq_append] at hs
      subst hs
      have hbp : b = p := by
        rw [lastOr_append] at hb
        have hb2 : some p = some b := hb
        exact ((Option.some.injEq _ _).mp hb2).symm
      subst hbp
      rw [dllSeg_append] at hsegs
      obtain ⟨-, hsegp⟩ := hsegs
      rw [dllSeg_singleton] at hsegp
      obtain ⟨ndp, hdp, -, hnp⟩ := hsegp
      have : hdOr (a :: t) none = some a := rfl
      simp [getNext, hdp, hnp, this]
  · intro b hb
    rw [hgn] at hb
    cases t with
    | nil => cases hb
    | cons q t1 =>
      have hbq : b = q := by
        have hb2 : some q = some b := hb
        exact ((Option.some.injEq _ _).mp hb2).symm
      subst hbq
      obtain ⟨ndb, hdb, hpb, -, -⟩ := hsegt
      simp [getPrev, hdb, hpb]

theorem represents_walk_facts {h : Heap} {l : ZList} {ns : List Nat}
    (hrep : represents h l ns) :
    (l.head = none ↔ l.tail = none) ∧
    (l.head = none ↔ l.length = 0) ∧
    walkNext h l.head l.length = none ∧
    (0 < l.length → walkNext h l.head (l.length - 1) = l.tail) ∧
    walkPrev h l.tail l.length = none ∧
    (0 < l.length → walkPrev h l.tail (l.length - 1) = l.head) ∧
    (∀ k, k < l.length ↔ (walkNext h l.head k).isSome) ∧
    (∀ j k a, walkNext h l.head j = some a → walkNext h l.head k = some a →
      j = k) := by
  obtain ⟨hnd, hseg, hhd, htl, hlen⟩ := hrep
  have hwalk : ∀ k, k ≤ ns.length → walkNext h l.head k = hdOr (ns.drop k) none := by
    intro k hk
    rw [hhd]
    exact walkNext_seg hseg k hk
  have hwalk' : ∀ k, walkNext h l.head k = ns[k]? := by
    intro k
    by_cases hk : k ≤ ns.length
    · rw [hwalk k hk, hdOr_drop]
    · push_neg at hk
      obtain ⟨m, rfl⟩ : ∃ m, k = ns.length + m :=
        ⟨k - ns.length, by omega⟩
      rw [walkNext_add, hwalk ns.length le_rfl]
      simp only [List.drop_length]
      rw [show hdOr [] none = none from rfl, walkNext_none]
      exact (List.getElem?_eq_none (by omega)).symm
  have hwalkp : ∀ k, k ≤ ns.length →
      walkPrev h l.tail k = lastOr (ns.take (ns.length - k)) none := by
    intro k hk
    rw [htl]
    exact walkPrev_seg ns none none hseg k hk
  refine ⟨?_, ?_, ?_, ?_, ?_, ?_, ?_, ?_⟩
  · rw [hhd, htl]
    cases ns with
    | nil => simp [hdOr, lastOr]
    | cons a rest =>
      constructor
      · intro hx
        cases hx
      · intro hx
        have := lastOr_isSome rest a
        rw [show lastOr (a :: rest) none = lastOr rest (some a) from rfl] at hx
        rw [hx] at this
        cases this
  · rw [hhd, hlen]
    cases ns with
    | nil => simp [hdOr]
    | cons a rest => simp [hdOr]
  · rw [hlen, hwalk' ns.length]
    exact List.getElem?_eq_none le_rfl
  · intro hpos
    rw [hlen] at hpos ⊢
    rw [hwalk' (ns.length - 1), htl, lastOr_eq_getLast?,
      List.getLast?_eq_getElem?]
  · rw [hlen, hwalkp ns.length le_rfl]
    simp only [Nat.sub_self, List.take_zero]
    rfl
  · intro hpos
    rw [hlen] at hpos ⊢
    rw [hwalkp (ns.length - 1) (Nat.sub_le _ _)]
    cases ns with
    | nil => cases hpos
    | cons a rest =>
      have h1 : (a :: rest).length - ((a :: rest).length - 1) = 1 := by
        simp
      rw [h1, hhd]
      rfl
  · intro k
    rw [hlen, hwalk' k]
    constructor
    · intro hk
      rw [List.getElem?_eq_getElem hk]
      rfl
    · intro hk
      by_contra hc
      push_neg at hc
      rw [List.getElem?_eq_none hc] at hk
      cases hk
  · intro j k a hj hk
    rw [hwalk'] at hj hk
    have hjlen : j < ns.length := by
      by_contra hc
      push_neg at hc
      rw [List.getElem?_eq_none hc] at hj
      cases hj
    exact List.getElem?_inj hjlen hnd (hj.trans hk.symm)

theorem represents_walkNext {h : Heap} {l : ZList} {ns : List Nat}
    (hrep : represents h l ns) : ∀ k, walkNext h l.head k = ns[k]? := by
  obtain ⟨hnd, hseg, hhd, htl, hlen⟩ := hrep
  intro k
  by_cases hk : k ≤ ns.length
  · rw [hhd, walkNext_seg hseg k hk, hdOr_drop]
  · push_neg at hk
    obtain ⟨m, rfl⟩ : ∃ m, k = ns.length + m := ⟨k - ns.length, by omega⟩
    rw [walkNext_add, hhd, walkNext_seg hseg ns.length le_rfl]
    simp only [List.drop_length]
    rw [show hdOr [] none = none from rfl, walkNext_none]
    exact (List.getElem?_eq_none (by omega)).symm

/-! ## Facts about the safe/Result tier -/

theorem Z_ENOMEM_ne_ok : Z_ENOMEM ≠ Z_OK := by decide

theorem push_back_safe_fail (h : Heap) (l : ZList) (v : Int) :
    zlist_push_back_safe h l v none =
      (h, l, zres_err (zlist_err Z_ENOMEM "List Push OOM")) := by
  simp [zlist_push_back_safe, push_back_fail, Z_ENOMEM_ne_ok]

theorem push_front_safe_fail (h : Heap) (l : ZList) (v : Int) :
    zlist_push_front_safe h l v none =
      (h, l, zres_err (zlist_err Z_ENOMEM "List Push OOM")) := by
  simp [zlist_push_front_safe, push_front_fail, Z_ENOMEM_ne_ok]

theorem push_back_safe_heap (h : Heap) (l : ZList) (v : Int) (alloc : Option Nat) :
    (zlist_push_back_safe h l v alloc).1 = (zlist_push_back h l v alloc).1 := by
  by_cases hc : (zlist_push_back h l v alloc).2.2 ≠ Z_OK
  · simp [zlist_push_back_safe, hc]
  · push_neg at hc
    simp [zlist_push_back_safe, hc]

theorem push_back_safe_list (h : Heap) (l : ZList) (v : Int) (alloc : Option Nat) :
    (zlist_push_back_safe h l v alloc).2.1 = (zlist_push_back h l v alloc).2.1 := by
  by_cases hc : (zlist_push_back h l v alloc).2.2 ≠ Z_OK
  · simp [zlist_push_back_safe, hc]
  · push_neg at hc
    simp [zlist_push_back_safe, hc]

theorem push_front_safe_heap (h : Heap) (l : ZList) (v : Int) (alloc : Option Nat) :
    (zlist_push_front_safe h l v alloc).1 = (zlist_push_front h l v alloc).1 := by
  by_cases hc : (zlist_push_front h l v alloc).2.2 ≠ Z_OK
  · simp [zlist_push_front_safe, hc]
  · push_neg at hc
    simp [zlist_push_front_safe, hc]

theorem push_front_safe_list (h : Heap) (l : ZList) (v : Int) (alloc : Option Nat) :
    (zlist_push_front_safe h l v alloc).2.1 = (zlist_push_front h l v alloc).2.1 := by
  by_cases hc : (zlist_push_front h l v alloc).2.2 ≠ Z_OK
  · simp [zlist_push_front_safe, hc]
  · push_neg at hc
    simp [zlist_push_front_safe, hc]

theorem push_back_code (h : Heap) (l : ZList) (v : Int) :
    ∀ alloc : Option Nat,
      (zlist_push_back h l v alloc).2.2 = Z_OK ↔ alloc.isSome = true := by
  intro alloc
  cases alloc with
  | none =>
    simp [push_back_fail]
    exact Z_ENOMEM_ne_ok
  | some a => simp [zlist_push_back]

theorem push_front_code (h : Heap) (l : ZList) (v : Int) :
    ∀ alloc : Option Nat,
      (zlist_push_front h l v alloc).2.2 = Z_OK ↔ alloc.isSome = true := by
  intro alloc
  cases alloc with
  | none =>
    simp [push_front_fail]
    exact Z_ENOMEM_ne_ok
  | some a => simp [zlist_push_front]

theorem push_back_safe_ok (h : Heap) (l : ZList) (v : Int) (alloc : Option Nat) :
    (zlist_push_back_safe h l v alloc).2.2.is_ok = true ↔
      (zlist_push_back h l v alloc).2.2 = Z_OK := by
  by_cases hc : (zlist_push_back h l v alloc).2.2 ≠ Z_OK
  · simp [zlist_push_back_safe, hc, zres_err]
  · push_neg at hc
    simp [zlist_push_back_safe, hc, zres_ok]

theorem push_front_safe_ok (h : Heap) (l : ZList) (v : Int) (alloc : Option Nat) :
    (zlist_push_front_safe h l v alloc).2.2.is_ok = true ↔
      (zlist_push_front h l v alloc).2.2 = Z_OK := by
  by_cases hc : (zlist_push_front h l v alloc).2.2 ≠ Z_OK
  · simp [zlist_push_front_safe, hc, zres_err]
  · push_neg at hc
    simp [zlist_push_front_safe, hc, zres_ok]

theorem pop_back_safe_empty (h : Heap) (l : ZList) (htl : l.tail = none) :
    zlist_pop_back_safe h l =
      (h, l, zres_err (zlist_err Z_EEMPTY "List is empty")) := by
  simp [zlist_pop_back_safe, htl]

theorem pop_front_safe_empty (h : Heap) (l : ZList) (hhd : l.head = none) :
    zlist_pop_front_safe h l =
      (h, l, zres_err (zlist_err Z_EEMPTY "List is empty")) := by
  simp [zlist_pop_front_safe, hhd]

theorem pop_back_safe_nonempty (h : Heap) (l : ZList) {t : Nat}
    (htl : l.tail = some t) :
    zlist_pop_back_safe h l =
      ((zlist_pop_back h l).1, (zlist_pop_back h l).2, zres_ok) := by
  simp [zlist_pop_back_safe, htl]

theorem pop_front_safe_nonempty (h : Heap) (l : ZList) {x : Nat}
    (hhd : l.head = some x) :
    zlist_pop_front_safe h l =
      ((zlist_pop_front h l).1, (zlist_pop_front h l).2, zres_ok) := by
  simp [zlist_pop_front_safe, hhd]

/-! ## Concrete fixtures for witnesses and counterexamples -/

/-- The heap with no allocated nodes. -/
def emptyHeap : Heap := fun _ => none

/-- A heap holding one isolated node at address 0 with value 7. -/
def exHeap : Heap := fun a => if a = 0 then some ⟨none, none, 7⟩ else none

/-- The one-node list over `exHeap`. -/
def exList : ZList := ⟨some 0, some 0, 1⟩

/-- A heap holding two isolated one-node chains (addresses 0 and 1). -/
def exHeap2 : Heap := fun a =>
  if a = 0 then some ⟨none, none, 1⟩
  else if a = 1 then some ⟨none, none, 2⟩
  else none

/-- The one-node list at address 0 over `exHeap2`. -/
def exA : ZList := ⟨some 0, some 0, 1⟩

/-- The one-node list at address 1 over `exHeap2`. -/
def exB : ZList := ⟨some 1, some 1, 1⟩

theorem represents_init (h : Heap) : represents h zlist_init [] :=
  ⟨List.nodup_nil, trivial, rfl, rfl, rfl⟩

theorem represents_exList : represents exHeap exList [0] := by
  refine ⟨List.nodup_singleton 0, ?_, rfl, rfl, rfl⟩
  rw [dllSeg_singleton]
  exact ⟨⟨none, none, 7⟩, rfl, rfl, rfl⟩

theorem represents_exA : represents exHeap2 exA [0] := by
  refine ⟨List.nodup_singleton 0, ?_, rfl, rfl, rfl⟩
  rw [dllSeg_singleton]
  exact ⟨⟨none, none, 1⟩, rfl, rfl, rfl⟩

theorem represents_exB : represents exHeap2 exB [1] := by
  refine ⟨List.nodup_singleton 1, ?_, rfl, rfl, rfl⟩
  rw [dllSeg_singleton]
  exact ⟨⟨none, none, 2⟩, rfl, rfl, rfl⟩

theorem disjoint_exAB : List.Disjoint [0] [1] := by
  intro x hx hy
  simp at hx hy
  omega

/-! ## Claim theorems -/

/-- C10: calling `zlist_remove_node` or `zlist_detach_node` with a NULL node
argument is a safe no-op: the heap and the handle (head, tail, length, and
hence the element sequence) are unchanged, nothing is deallocated, and
`zlist_detach_node` returns the not-found sentinel NULL. -/
theorem C10_null_node_noop :
    ∀ (h : Heap) (l : ZList),
      zlist_remove_node h l none = (h, l) ∧
      zlist_detach_node h l none = (h, l, none) :=
  fun _ _ => ⟨rfl, rfl⟩

/-- C6: on an empty list, the raw `zlist_pop_back`/`zlist_pop_front` are
silent no-ops leaving the heap and handle unchanged (length stays 0), while
the safe-tier pop_back/pop_front/front/back return an `EmptyContainer`
(`Z_EEMPTY`) failure and leave the list unchanged. -/
theorem C6_empty_pop_noop_and_safe_error :
    ∀ (h : Heap) (l : ZList), l.head = none → l.tail = none →
      zlist_pop_back h l = (h, l) ∧
      zlist_pop_front h l = (h, l) ∧
      zlist_pop_back_safe h l =
        (h, l, zres_err (zlist_err Z_EEMPTY "List is empty")) ∧
      zlist_pop_front_safe h l =
        (h, l, zres_err (zlist_err Z_EEMPTY "List is empty")) ∧
      zlist_front_safe h l = ResV.err (zlist_err Z_EEMPTY "List is empty") ∧
      zlist_back_safe h l = ResV.err (zlist_err Z_EEMPTY "List is empty") := by
  intro h l hhd htl
  exact ⟨pop_back_empty h l htl, pop_front_empty h l hhd,
    pop_back_safe_empty h l htl, pop_front_safe_empty h l hhd,
    by simp [zlist_front_safe, hhd], by simp [zlist_back_safe, htl]⟩

/-- C6 witness: the empty list at `zlist_init` over the empty heap. -/
theorem C6_witness :
    zlist_pop_back emptyHeap zlist_init = (emptyHeap, zlist_init) :=
  (C6_empty_pop_noop_and_safe_error emptyHeap zlist_init rfl rfl).1

/-- C5: when allocation fails, the raw pushes return `Z_ENOMEM` and leave
the heap and list unchanged, and the safe pushes return an `OutOfMemory`
(`Z_ENOMEM`) failure Result with the list likewise unchanged; when
allocation succeeds, both pushes link the fresh node at the corresponding
end (tail for push_back, head for push_front), keeping the handle invariant
and appending/prepending the value. -/
theorem C5_push_failure_and_success :
    (∀ (h : Heap) (l : ZList) (v : Int),
      zlist_push_back h l v none = (h, l, Z_ENOMEM) ∧
      zlist_push_front h l v none = (h, l, Z_ENOMEM) ∧
      zlist_push_back_safe h l v none =
        (h, l, zres_err (zlist_err Z_ENOMEM "List Push OOM")) ∧
      zlist_push_front_safe h l v none =
        (h, l, zres_err (zlist_err Z_ENOMEM "List Push OOM"))) ∧
    (∀ (h : Heap) (l : ZList) (ns : List Nat) (v : Int) (a : Nat),
      represents h l ns → h a = none →
      (zlist_push_back h l v (some a)).2.2 = Z_OK ∧
      represents (zlist_push_back h l v (some a)).1
        (zlist_push_back h l v (some a)).2.1 (ns ++ [a]) ∧
      vals (zlist_push_back h l v (some a)).1 (ns ++ [a]) = vals h ns ++ [v] ∧
      (zlist_push_back h l v (some a)).2.1.tail = some a ∧
      (zlist_push_front h l v (some a)).2.2 = Z_OK ∧
      represents (zlist_push_front h l v (some a)).1
        (zlist_push_front h l v (some a)).2.1 (a :: ns) ∧
      vals (zlist_push_front h l v (some a)).1 (a :: ns) = v :: vals h ns ∧
      (zlist_push_front h l v (some a)).2.1.head = some a) := by
  constructor
  · intro h l v
    exact ⟨push_back_fail h l v, push_front_fail h l v,
      push_back_safe_fail h l v, push_front_safe_fail h l v⟩
  · intro h l ns v a hrep hfresh
    obtain ⟨hb1, hb2, -, hb4⟩ := push_back_spec v hrep hfresh
    obtain ⟨hf1, hf2, -, hf4⟩ := push_front_spec v hrep hfresh
    exact ⟨hb1, hb2, hb4, rfl, hf1, hf2, hf4, rfl⟩

/-- C5 witness: a successful push_back of 5 into the empty list at a fresh
address 0. -/
theorem C5_witness :
    represents (zlist_push_back emptyHeap zlist_init 5 (some 0)).1
      (zlist_push_back emptyHeap zlist_init 5 (some 0)).2.1 ([] ++ [0]) :=
  (C5_push_failure_and_success.2 emptyHeap zlist_init [] 5 0
    (represents_init emptyHeap) rfl).2.1

/-- C9: the safe tier agrees with the raw tier on state: each safe push
leaves the heap and handle exactly as the raw push under the same
allocation outcome and succeeds iff the raw push returns `Z_OK`, which
happens iff allocation succeeded; each safe pop leaves the state exactly
as the raw pop and succeeds iff the guarded end pointer is non-NULL, which
under the handle invariant is exactly "the list was non-empty". -/
theorem C9_safe_tier_agrees_with_raw :
    (∀ (h : Heap) (l : ZList) (v : Int) (alloc : Option Nat),
      (zlist_push_back_safe h l v alloc).1 = (zlist_push_back h l v alloc).1 ∧
      (zlist_push_back_safe h l v alloc).2.1 = (zlist_push_back h l v alloc).2.1 ∧
      ((zlist_push_back_safe h l v alloc).2.2.is_ok = true ↔
        (zlist_push_back h l v alloc).2.2 = Z_OK) ∧
      ((zlist_push_back_safe h l v alloc).2.2.is_ok = true ↔
        alloc.isSome = true) ∧
      (zlist_push_front_safe h l v alloc).1 = (zlist_push_front h l v alloc).1 ∧
      (zlist_push_front_safe h l v alloc).2.1 = (zlist_push_front h l v alloc).2.1 ∧
      ((zlist_push_front_safe h l v alloc).2.2.is_ok = true ↔
        (zlist_push_front h l v alloc).2.2 = Z_OK) ∧
      ((zlist_push_front_safe h l v alloc).2.2.is_ok = true ↔
        alloc.isSome = true)) ∧
    (∀ (h : Heap) (l : ZList),
      (zlist_pop_back_safe h l).1 = (zlist_pop_back h l).1 ∧
      (zlist_pop_back_safe h l).2.1 = (zlist_pop_back h l).2 ∧
      ((zlist_pop_back_safe h l).2.2.is_ok = true ↔ l.tail.isSome = true) ∧
      (zlist_pop_front_safe h l).1 = (zlist_pop_front h l).1 ∧
      (zlist_pop_front_safe h l).2.1 = (zlist_pop_front h l).2 ∧
      ((zlist_pop_front_safe h l).2.2.is_ok = true ↔ l.head.isSome = true)) ∧
    (∀ (h : Heap) (l : ZList) (ns : List Nat), represents h l ns →
      (((zlist_pop_back_safe h l).2.2.is_ok = true ↔
        ¬ zlist_is_empty l = true) ∧
       ((zlist_pop_front_safe h l).2.2.is_ok = true ↔
        ¬ zlist_is_empty l = true))) := by
  refine ⟨?_, ?_, ?_⟩
  · intro h l v alloc
    refine ⟨push_back_safe_heap h l v alloc, push_back_safe_list h l v alloc,
      push_back_safe_ok h l v alloc,
      (push_back_safe_ok h l v alloc).trans (push_back_code h l v alloc),
      push_front_safe_heap h l v alloc, push_front_safe_list h l v alloc,
      push_front_safe_ok h l v alloc,
      (push_front_safe_ok h l v alloc).trans (push_front_code h l v alloc)⟩
  · intro h l
    cases htl : l.tail with
    | none =>
      cases hhd : l.head with
      | none =>
        rw [pop_back_safe_empty h l htl, pop_front_safe_empty h l hhd,
          pop_back_empty h l htl, pop_front_empty h l hhd]
        simp [zres_err]
      | some x =>
        rw [pop_back_safe_empty h l htl, pop_front_safe_nonempty h l hhd,
          pop_back_empty h l htl]
        simp [zres_err, zres_ok]
    | some t =>
      cases hhd : l.head with
      | none =>
        rw [pop_back_safe_nonempty h l htl, pop_front_safe_empty h l hhd,
          pop_front_empty h l hhd]
        simp [zres_err, zres_ok]
      | some x =>
        rw [pop_back_safe_nonempty h l htl, pop_front_safe_nonempty h l hhd]
        simp [zres_ok]
  · intro h l ns hrep
    obtain ⟨-, -, hhd, htl, -⟩ := hrep
    cases ns with
    | nil =>
      have hh : l.head = none := hhd
      have ht : l.tail = none := htl
      rw [pop_back_safe_empty h l ht, pop_front_safe_empty h l hh]
      simp [zres_err, zlist_is_empty, hh]
    | cons x rest =>
      have hh : l.head = some x := hhd
      obtain ⟨t, ht⟩ : ∃ t, l.tail = some t := by
        rw [htl]
        cases hlo : lastOr (x :: rest) none with
        | none =>
          have := lastOr_isSome rest x
          rw [show lastOr (x :: rest) none = lastOr rest (some x) from rfl] at hlo
          rw [hlo] at this
          cases this
        | some t => exact ⟨t, rfl⟩
      rw [pop_back_safe_nonempty h l ht, pop_front_safe_nonempty h l hh]
      simp [zres_ok, zlist_is_empty, hh]

/-- C9 witness: on the non-empty one-node list, the safe pop succeeds and
`is_empty` is false. -/
theorem C9_witness :
    (zlist_pop_back_safe exHeap exList).2.2.is_ok = true ↔
      ¬ zlist_is_empty exList = true :=
  ((C9_safe_tier_agrees_with_raw.2.2 exHeap exList [0] represents_exList)).1

/-- C2: for distinct handles A and B owning disjoint chains, splice moves
B's whole chain to the end of A: A's element sequence becomes the
concatenation, A.length becomes m + n, B becomes empty with length 0, and
the heap is untouched except at the two joined nodes (A's old tail and B's
old head) — the O(1) "no per-node visit" property. -/
theorem C2_splice_concatenates :
    ∀ (h : Heap) (A B : ZList) (nsa nsb : List Nat),
      represents h A nsa → represents h B nsb → nsa.Disjoint nsb →
      represents (zlist_splice h A B false).1
        (zlist_splice h A B false).2.1 (nsa ++ nsb) ∧
      vals (zlist_splice h A B false).1 (nsa ++ nsb) =
        vals h nsa ++ vals h nsb ∧
      (zlist_splice h A B false).2.1.length = A.length + B.length ∧
      (zlist_splice h A B false).2.2 = ⟨none, none, 0⟩ ∧
      (∀ b, some b ≠ A.tail → some b ≠ B.head →
        (zlist_splice h A B false).1 b = h b) := by
  intro h A B nsa nsb hra hrb hdisj
  obtain ⟨hrep, hempty, hvals, hframe⟩ := splice_spec hra hrb hdisj
  refine ⟨hrep, hvals, ?_, hempty, hframe⟩
  rw [hrep.len_eq, List.length_append, hra.len_eq, hrb.len_eq]

/-- C2 witness: splicing the one-node list B = [2] onto A = [1]. -/
theorem C2_witness :
    (zlist_splice exHeap2 exA exB false).2.2 = ⟨none, none, 0⟩ :=
  (C2_splice_concatenates exHeap2 exA exB [0] [1]
    represents_exA represents_exB disjoint_exAB).2.2.2.1

/-- C3 counterexample: on a valid non-empty list, `zlist_splice(L, L)`
(same handle on both sides) returns through the `dest == src` guard without
resetting the handle, so the source is NOT empty afterward — its length is
still 1, refuting "the source handle src is empty afterward" for the
`dest == src` case. -/
theorem C3_counterexample :
    represents exHeap exList [0] ∧
    (zlist_splice exHeap exList exList true).2.2.length ≠ 0 :=
  ⟨represents_exList, by decide⟩

/-- C3 (amended): for distinct handles (`dest ≠ src`), the source handle is
always empty afterward (head and tail NULL, length 0) for every valid
source; when `dest == src` the call is a guarded no-op that leaves the
heap and both handle views unchanged. -/
theorem C3_amended_src_reset :
    (∀ (h : Heap) (dest src : ZList) (nss : List Nat), represents h src nss →
      (zlist_splice h dest src false).2.2 = ⟨none, none, 0⟩) ∧
    (∀ (h : Heap) (dest src : ZList),
      zlist_splice h dest src true = (h, dest, src)) := by
  constructor
  · intro h dest src nss hrep
    obtain ⟨-, -, hhd, htl, hlen⟩ := hrep
    cases nss with
    | nil =>
      have hh : src.head = none := hhd
      have hsp : zlist_splice h dest src false = (h, dest, src) := by
        simp [zlist_splice, hh]
      rw [hsp]
      exact ZList_eq_empty hh htl hlen
    | cons q t1 =>
      have hh : src.head = some q := hhd
      cases hd : dest.head with
      | none => simp [zlist_splice, hh, hd]
      | some x => simp [zlist_splice, hh, hd]
  · intro h dest src
    rfl

/-- C3 amended witness: splicing the one-node list into an empty list
resets the source handle. -/
theorem C3_amended_witness :
    (zlist_splice exHeap zlist_init exList false).2.2 = ⟨none, none, 0⟩ :=
  C3_amended_src_reset.1 exHeap zlist_init exList [0] represents_exList

/-- C7: reverse is an involution — applying `zlist_reverse` twice restores
the original handle and restores every heap cell — and a single reverse
yields the reversed element sequence with head and tail swapped (the
invariant is preserved via the reversed chain). -/
theorem C7_reverse_involution :
    ∀ (h : Heap) (l : ZList) (ns : List Nat), represents h l ns →
      (zlist_reverse (zlist_reverse h l).1 (zlist_reverse h l).2).2 = l ∧
      (∀ b, (zlist_reverse (zlist_reverse h l).1 (zlist_reverse h l).2).1 b
        = h b) ∧
      represents (zlist_reverse h l).1 (zlist_reverse h l).2 ns.reverse ∧
      vals (zlist_reverse h l).1 ns.reverse = (vals h ns).reverse ∧
      (zlist_reverse h l).2.head = l.tail ∧
      (zlist_reverse h l).2.tail = l.head := by
  intro h l ns hrep
  obtain ⟨hH1, hrep1, hh1, ht1, hl1, hv1⟩ := reverse_spec hrep
  obtain ⟨hH2, hrep2, hh2, ht2, hl2, hv2⟩ := reverse_spec hrep1
  refine ⟨?_, ?_, hrep1, hv1, hh1, ht1⟩
  · refine ZList_ext ?_ ?_ ?_
    · rw [hh2, ht1]
    · rw [ht2, hh1]
    · rw [hl2, hl1]
  · intro b
    rw [hH2 b]
    by_cases hb : b ∈ ns
    · rw [if_pos (List.mem_reverse.mpr hb), hH1 b, if_pos hb]
      cases h b with
      | none => rfl
      | some nd => rfl
    · rw [if_neg (fun hx => hb (List.mem_reverse.mp hx)), hH1 b, if_neg hb]

/-- C7 witness: double reverse of the one-node list restores the handle. -/
theorem C7_witness :
    (zlist_reverse (zlist_reverse exHeap exList).1
      (zlist_reverse exHeap exList).2).2 = exList :=
  (C7_reverse_involution exHeap exList [0] represents_exList).1

/-- C8: detaching a node n of L decreases L.length by exactly 1, removes n
from the chain (no forward walk from the new head ever reaches n), leaves
the rest of the sequence in order, returns n with both links cleared, and
does not deallocate n (its cell still holds its value). -/
theorem C8_detach_isolates :
    ∀ (h : Heap) (l : ZList) (s t : List Nat) (n : Nat),
      represents h l (s ++ n :: t) →
      (zlist_detach_node h l (some n)).2.2 = some n ∧
      (zlist_detach_node h l (some n)).2.1.length = l.length - 1 ∧
      l.length = (zlist_detach_node h l (some n)).2.1.length + 1 ∧
      represents (zlist_detach_node h l (some n)).1
        (zlist_detach_node h l (some n)).2.1 (s ++ t) ∧
      (∀ k, walkNext (zlist_detach_node h l (some n)).1
        (zlist_detach_node h l (some n)).2.1.head k ≠ some n) ∧
      (zlist_detach_node h l (some n)).1 n =
        some { prev := none, next := none, value := getVal h n } ∧
      vals (zlist_detach_node h l (some n)).1 (s ++ t) =
        vals h s ++ vals h t := by
  intro h l s t n hrep
  obtain ⟨hret, hrep2, hnotin, hcell, hvals, hlen1, hlen2⟩ :=
    detach_node_spec hrep
  refine ⟨hret, hlen1, hlen2, hrep2, ?_, hcell, hvals⟩
  intro k hk
  rw [represents_walkNext hrep2 k] at hk
  exact hnotin (List.getElem?_mem hk)

/-- C8 witness: detaching the only node of the one-node list. -/
theorem C8_witness :
    (zlist_detach_node exHeap exList (some 0)).2.2 = some 0 :=
  (C8_detach_isolates exHeap exList [] [] 0 represents_exList).1

/-- C1: every public operation of the per-type list engine — push_back,
push_front, insert_after, pop_back, pop_front, remove_node, detach_node,
clear, splice, reverse — preserves the list-handle invariant (`listInv`:
some duplicate-free address chain with consistent prev/next links and NULL
ends realises the handle's head/tail/length), under each operation's
preconditions (fresh allocation outcomes; the node argument of
remove_node/detach_node belongs to the list; splice is called on distinct
handles owning disjoint chains).  The final conjunct spells out what the
invariant means operationally: head is none iff tail is none iff length is
0; walking from head via successor links falls off after exactly `length`
steps and reaches tail at step `length - 1`, symmetrically from tail via
predecessor links; exactly the first `length` walk positions are occupied,
with no position visited twice (no cycles, length = count of reachable
nodes); and adjacent links are symmetric at every reachable node. -/
theorem C1_ops_preserve_invariants :
    (∀ (h : Heap) (l : ZList) (ns : List Nat) (v : Int) (alloc : Option Nat),
      represents h l ns → (∀ a, alloc = some a → h a = none) →
      listInv (zlist_push_back h l v alloc).1
        (zlist_push_back h l v alloc).2.1) ∧
    (∀ (h : Heap) (l : ZList) (ns : List Nat) (v : Int) (alloc : Option Nat),
      represents h l ns → (∀ a, alloc = some a → h a = none) →
      listInv (zlist_push_front h l v alloc).1
        (zlist_push_front h l v alloc).2.1) ∧
    (∀ (h : Heap) (l : ZList) (ns : List Nat) (p : Option Nat) (v : Int)
        (alloc : Option Nat),
      represents h l ns → (p = none ∨ ∃ pa, p = some pa ∧ pa ∈ ns) →
      (∀ a, alloc = some a → h a = none) →
      listInv (zlist_insert_after h l p v alloc).1
        (zlist_insert_after h l p v alloc).2.1) ∧
    (∀ (h : Heap) (l : ZList) (ns : List Nat), represents h l ns →
      listInv (zlist_pop_back h l).1 (zlist_pop_back h l).2) ∧
    (∀ (h : Heap) (l : ZList) (ns : List Nat), represents h l ns →
      listInv (zlist_pop_front h l).1 (zlist_pop_front h l).2) ∧
    (∀ (h : Heap) (l : ZList) (ns : List Nat) (n : Nat),
      represents h l ns → n ∈ ns →
      listInv (zlist_remove_node h l (some n)).1
        (zlist_remove_node h l (some n)).2) ∧
    (∀ (h : Heap) (l : ZList) (ns : List Nat) (n : Nat),
      represents h l ns → n ∈ ns →
      listInv (zlist_detach_node h l (some n)).1
        (zlist_detach_node h l (some n)).2.1) ∧
    (∀ (h : Heap) (l : ZList) (ns : List Nat), represents h l ns →
      listInv (zlist_clear h l).1 (zlist_clear h l).2) ∧
    (∀ (h : Heap) (A B : ZList) (nsa nsb : List Nat),
      represents h A nsa → represents h B nsb → nsa.Disjoint nsb →
      listInv (zlist_splice h A B false).1 (zlist_splice h A B false).2.1 ∧
      listInv (zlist_splice h A B false).1 (zlist_splice h A B false).2.2) ∧
    (∀ (h : Heap) (l : ZList) (ns : List Nat), represents h l ns →
      listInv (zlist_reverse h l).1 (zlist_reverse h l).2) ∧
    (∀ (h : Heap) (l : ZList), listInv h l →
      (l.head = none ↔ l.tail = none) ∧
      (l.head = none ↔ l.length = 0) ∧
      walkNext h l.head l.length = none ∧
      (0 < l.length → walkNext h l.head (l.length - 1) = l.tail) ∧
      walkPrev h l.tail l.length = none ∧
      (0 < l.length → walkPrev h l.tail (l.length - 1) = l.head) ∧
      (∀ k, k < l.length ↔ (walkNext h l.head k).isSome) ∧
      (∀ j k a, walkNext h l.head j = some a →
        walkNext h l.head k = some a → j = k) ∧
      (∀ k a, walkNext h l.head k = some a →
        (∀ b, getPrev h a = some b → getNext h b = some a) ∧
        (∀ b, getNext h a = some b → getPrev h b = some a))) := by
  refine ⟨?_, ?_, ?_, ?_, ?_, ?_, ?_, ?_, ?_, ?_, ?_⟩
  · -- push_back
    intro h l ns v alloc hrep halloc
    cases alloc with
    | none => exact ⟨ns, hrep⟩
    | some a => exact ⟨ns ++ [a], (push_back_spec v hrep (halloc a rfl)).2.1⟩
  · -- push_front
    intro h l ns v alloc hrep halloc
    cases alloc with
    | none => exact ⟨ns, hrep⟩
    | some a => exact ⟨a :: ns, (push_front_spec v hrep (halloc a rfl)).2.1⟩
  · -- insert_after
    intro h l ns p v alloc hrep hp halloc
    rcases hp with rfl | ⟨pa, rfl, hpa⟩
    · cases alloc with
      | none => exact ⟨ns, hrep⟩
      | some a => exact ⟨a :: ns, (push_front_spec v hrep (halloc a rfl)).2.1⟩
    · cases alloc with
      | none => exact ⟨ns, hrep⟩
      | some a =>
        obtain ⟨s, t, rfl⟩ := List.append_of_mem hpa
        exact ⟨s ++ pa :: a :: t,
          (insert_after_spec v hrep (halloc a rfl)).2⟩
  · -- pop_back
    intro h l ns hrep
    rcases List.eq_nil_or_concat ns with rfl | ⟨s, t, hs⟩
    · have htl : l.tail = none := hrep.tail_eq
      simp only [pop_back_empty h l htl]
      exact ⟨[], hrep⟩
    · rw [List.concat_eq_append] at hs
      subst hs
      exact ⟨s, (pop_back_spec hrep).1⟩
  · -- pop_front
    intro h l ns hrep
    cases ns with
    | nil =>
      have hhd : l.head = none := hrep.head_eq
      simp only [pop_front_empty h l hhd]
      exact ⟨[], hrep⟩
    | cons x rest => exact ⟨rest, (pop_front_spec hrep).1⟩
  · -- remove_node
    intro h l ns n hrep hn
    obtain ⟨s, t, rfl⟩ := List.append_of_mem hn
    exact ⟨s ++ t, (remove_node_spec hrep).1⟩
  · -- detach_node
    intro h l ns n hrep hn
    obtain ⟨s, t, rfl⟩ := List.append_of_mem hn
    exact ⟨s ++ t, (detach_node_spec hrep).2.1⟩
  · -- clear
    intro h l ns hrep
    obtain ⟨hcl, -⟩ := clear_spec hrep
    exact ⟨[], List.nodup_nil, trivial, by rw [hcl]; rfl, by rw [hcl]; rfl,
      by rw [hcl]; rfl⟩
  · -- splice
    intro h A B nsa nsb hra hrb hdisj
    obtain ⟨hrep, hempty, -, -⟩ := splice_spec hra hrb hdisj
    exact ⟨⟨nsa ++ nsb, hrep⟩,
      ⟨[], List.nodup_nil, trivial, by rw [hempty]; rfl, by rw [hempty]; rfl,
        by rw [hempty]; rfl⟩⟩
  · -- reverse
    intro h l ns hrep
    exact ⟨ns.reverse, (reverse_spec hrep).2.1⟩
  · -- the operational reading of the invariant
    rintro h l ⟨ns, hrep⟩
    obtain ⟨w1, w2, w3, w4, w5, w6, w7, w8⟩ := represents_walk_facts hrep
    refine ⟨w1, w2, w3, w4, w5, w6, w7, w8, ?_⟩
    intro k a hka
    exact dllSeg_adj_symm hrep.seg a
      (List.getElem?_mem ((represents_walkNext hrep k).symm.trans hka))

/-- C1 witness: a successful push_back of 5 onto the empty list at fresh
address 0 preserves the handle invariant. -/
theorem C1_witness :
    listInv (zlist_push_back emptyHeap zlist_init 5 (some 0)).1
      (zlist_push_back emptyHeap zlist_init 5 (some 0)).2.1 :=
  C1_ops_preserve_invariants.1 emptyHeap zlist_init [] 5 (some 0)
    (represents_init emptyHeap) (fun a ha => by cases ha; rfl)
